import Mathlib

/-!
gocd-golang-agent: build console, NUnit report merging, artifact server.

A shallow embedding of `agent/build_console.go`, `nunit/xml_report.go` and
`server/artifacts.go`, followed by theorems about the embedded functions.

Conventions of the embedding:

* A Go `string` or `[]byte` is a `List Char`; every character stands for one
  byte.  All operations used by the code (splitting on a separator byte,
  slicing, concatenation, comparison) act on the sequence only.
* A Go slice that the code compares with `nil` is an `Option (List α)`, with
  `none` for the nil slice.
* Calls into the outside world (the clock, the HTTP client, the multipart
  reader, the zip decoder) are explicit inputs of the functions that use them.
-/

set_option linter.dupNamespace false

/-- Go `string` / `[]byte`: a sequence of bytes. -/
abbrev Bytes := List Char

/-- Go `error` value, identified by its message. -/
abbrev GoError := String

/-! ## `strings.Split` for a one-byte separator -/

/-- Scanning loop of `strings.Split` for the one-byte separator `sep`: `cur` is
the segment read so far. -/
def splitLoop (sep : Char) : Bytes → Bytes → List Bytes
  | [], cur => [cur]
  | c :: rest, cur =>
      if c = sep then cur :: splitLoop sep rest [] else splitLoop sep rest (cur ++ [c])

/-- `strings.Split(s, sep)` for a one-byte separator: the segments between
separators, `n + 1` of them when `sep` occurs `n` times. -/
def stringsSplit (s : Bytes) (sep : Char) : List Bytes := splitLoop sep s []

namespace Agent

/-! ## `time.Time` and the layout `15:04:05.000` -/

/-- The instant read by `time.Now()`: wall-clock nanoseconds of local time
since the epoch. -/
structure Time where
  localNanos : Nat
deriving DecidableEq, Repr

/-- Hour of the day, as `Time.Clock` computes it. -/
def Time.Hour (t : Time) : Nat := t.localNanos / 1000000000 % 86400 / 3600

/-- Minute of the hour, as `Time.Clock` computes it. -/
def Time.Minute (t : Time) : Nat := t.localNanos / 1000000000 % 86400 % 3600 / 60

/-- Second of the minute, as `Time.Clock` computes it. -/
def Time.Second (t : Time) : Nat := t.localNanos / 1000000000 % 86400 % 3600 % 60

/-- Nanosecond offset within the second. -/
def Time.Nanosecond (t : Time) : Nat := t.localNanos % 1000000000

/-- The decimal digit of `n % 10`. -/
def digitChar (n : Nat) : Char :=
  match n % 10 with
  | 0 => '0' | 1 => '1' | 2 => '2' | 3 => '3' | 4 => '4'
  | 5 => '5' | 6 => '6' | 7 => '7' | 8 => '8' | _ => '9'

/-- Zero-padded two-digit field (`appendInt(b, v, 2)` for `v < 100`). -/
def appendInt2 (v : Nat) : Bytes := [digitChar (v / 10), digitChar v]

/-- Fractional field `.000`: a dot and the three millisecond digits. -/
def formatNano3 (nanosec : Nat) : Bytes :=
  ['.', digitChar (nanosec / 100000000), digitChar (nanosec / 10000000),
    digitChar (nanosec / 1000000)]

/-- `t.Format("15:04:05.000")`. -/
def Time.Format (t : Time) : Bytes :=
  appendInt2 t.Hour ++ [':'] ++ appendInt2 t.Minute ++ [':'] ++ appendInt2 t.Second
    ++ formatNano3 t.Nanosecond

/-- A timestamp of the form `HH:MM:SS.mmm`: twelve bytes, digits separated by
two colons and a dot. -/
def isTimestamp (s : Bytes) : Bool :=
  match s with
  | [h1, h2, c1, m1, m2, c2, s1, s2, d, f1, f2, f3] =>
      h1.isDigit && h2.isDigit && c1 == ':' && m1.isDigit && m2.isDigit && c2 == ':'
        && s1.isDigit && s2.isDigit && d == '.' && f1.isDigit && f2.isDigit && f3.isDigit
  | _ => false

/-! ## `BuildConsole` -/

/-- Outcome of `HttpClient.Do(&req)`: how many bytes of the request body the
transport consumed, and the error it returned (`none` for a response). -/
structure HttpResult where
  bodyRead : Nat
  err : Option GoError
deriving DecidableEq, Repr

/-- The `http.Request` built by `Flush`. -/
structure Request where
  Method : String
  URL : Bytes
  Body : Bytes
  ContentLength : Nat
  Close : Bool
deriving DecidableEq, Repr

/-- The data fields of `BuildConsole`.  `Buffer` holds the unread bytes of the
`bytes.Buffer`; the channels `stop`, `write` and the wait group `closed` are
the events and the `closed` flag of `Worker` below. -/
structure BuildConsole where
  Url : Bytes
  Buffer : Bytes
  writeTimestamp : Bool
deriving DecidableEq, Repr

/-- What one call of `Flush` did besides changing the console: the request it
handed to the HTTP client and the line it logged with `logger.Error`. -/
structure FlushEffect where
  sent : Option Request
  logged : Option GoError
deriving DecidableEq, Repr

/-- `BuildConsole.Flush`.  `result` is the outcome of `HttpClient.Do`, should the
call be made.  The request body is the buffer itself, so the transport drains
what it reads; `Buffer.Reset()` then discards the rest. -/
def BuildConsole.Flush (console : BuildConsole) (result : HttpResult) :
    BuildConsole × FlushEffect :=
  if console.Buffer.length = 0 then
    (console, { sent := none, logged := none })
  else
    let req : Request :=
      { Method := "PUT", URL := console.Url, Body := console.Buffer,
        ContentLength := console.Buffer.length, Close := true }
    -- HttpClient.Do reads the body from console.Buffer
    let afterDo : BuildConsole := { console with Buffer := console.Buffer.drop result.bodyRead }
    let logged := result.err.map (fun e => "build console flush failed: " ++ e)
    -- console.Buffer.Reset()
    ({ afterDo with Buffer := [] }, { sent := some req, logged := logged })

/-- An event selected by the worker goroutine started in `MakeBuildConsole`. -/
inductive Event where
  /-- A fragment received on `console.write`. -/
  | write (log : Bytes)
  /-- A value received on `console.stop`; `result` is the outcome of the PUT. -/
  | stop (result : HttpResult)
  /-- A tick of the five-second `flushTick`; `result` is the outcome of the PUT. -/
  | tick (result : HttpResult)
deriving DecidableEq, Repr

/-- State of the worker goroutine: the console it owns, the requests it sent,
the errors it logged, and whether it has returned (`closed.Done()`). -/
structure Worker where
  console : BuildConsole
  puts : List Request
  errors : List GoError
  closed : Bool
deriving DecidableEq, Repr

/-- `MakeBuildConsole`: an empty buffer, timestamps on, the worker running. -/
def MakeBuildConsole (url : Bytes) : Worker :=
  { console := { Url := url, Buffer := [], writeTimestamp := true },
    puts := [], errors := [], closed := false }

/-- Record the effect of one `Flush` in the worker state. -/
def Worker.afterFlush (w : Worker) (r : BuildConsole × FlushEffect) : Worker :=
  { w with console := r.1, puts := w.puts ++ r.2.sent.toList,
           errors := w.errors ++ r.2.logged.toList }

/-- One iteration of the worker's `select` loop.  After the worker has returned
no event is received any more. -/
def Worker.step (w : Worker) : Event → Worker
  | .write log =>
      if w.closed then w
      else { w with console := { w.console with Buffer := w.console.Buffer ++ log } }
  | .stop result =>
      if w.closed then w
      else { w.afterFlush (w.console.Flush result) with closed := true }
  | .tick result =>
      if w.closed then w
      else w.afterFlush (w.console.Flush result)

/-- The worker loop over a sequence of events. -/
def Worker.run (w : Worker) (events : List Event) : Worker := events.foldl Worker.step w

/-- The four fragments `Write` sends for the `i`-th line: timestamp, space,
line, newline. -/
def lineFragments (now : Nat → Time) (i : Nat) (line : Bytes) : List Bytes :=
  [(now i).Format, [' '], line, ['\n']]

/-- The lines of `BuildConsole.Write(data)`, each as its four fragments.  `now i`
is what the `i`-th call of `time.Now()` in this `Write` returns. -/
def Write.lines (now : Nat → Time) (data : Bytes) : List (List Bytes) :=
  (stringsSplit data '\n').enum.map (fun p => lineFragments now p.1 p.2)

/-- The values `BuildConsole.Write(data)` sends on `console.write`, in order. -/
def Write.sends (now : Nat → Time) (data : Bytes) : List Bytes :=
  (Write.lines now data).flatten

/-- `BuildConsole.Write(data)`: the values it sends on `console.write`, and its
return values `(len(data), nil)`. -/
def BuildConsole.Write (now : Nat → Time) (data : Bytes) : List Bytes × (Nat × Option GoError) :=
  (Write.sends now data, (data.length, none))

/-- The order in which the worker receives the sends of two goroutines: `true`
in the schedule lets the first goroutine send next, `false` the second. -/
def interleave {α : Type} : List Bool → List α → List α → List α
  | _, [], ys => ys
  | _, xs, [] => xs
  | [], xs, ys => xs ++ ys
  | true :: s, x :: xs, ys => x :: interleave s xs ys
  | false :: s, xs, y :: ys => y :: interleave s xs ys

/-- The events the worker receives from two concurrent `Write` calls under a
schedule, each fragment tagged with the call (0 or 1) that sent it. -/
def receivedFrom (sched : List Bool) (a b : List Bytes) : List (Nat × Bytes) :=
  interleave sched (a.map (Prod.mk 0)) (b.map (Prod.mk 1))

/-- The four fragments of every line of call `tag` are adjacent in what the
worker received. -/
def LinesAdjacent (tag : Nat) (lines : List (List Bytes)) (recv : List (Nat × Bytes)) : Prop :=
  ∀ l ∈ lines, l.map (Prod.mk tag) <:+: recv

/-- Bytes appended to the buffer since the previous flush whose PUT succeeded:
the reading of the console-upload sentence of the specification. -/
def sinceSuccessfulFlush (events : List Event) : Bytes :=
  events.foldl (fun acc e =>
    match e with
    | .write log => acc ++ log
    | .stop r => if r.err = none then [] else acc
    | .tick r => if r.err = none then [] else acc) []

/-- Bytes appended to the buffer since the previous flush, whatever the outcome
of its PUT. -/
def sinceFlush (events : List Event) : Bytes :=
  events.foldl (fun acc e =>
    match e with
    | .write log => acc ++ log
    | .stop _ => []
    | .tick _ => []) []

end Agent

namespace Nunit

/-! ## `nunit/xml_report.go`: the report types -/

/-- Go slice that may be `nil`: `none` is the nil slice, `some l` a non-nil
slice with elements `l` (possibly none). -/
abbrev Slice (α : Type) := Option (List α)

/-- The elements of a slice; the nil slice has none. -/
def Slice.toList {α : Type} : Slice α → List α
  | none => []
  | some l => l

/-- Go `append(s, elems...)`: appending nothing to the nil slice leaves it nil. -/
def goAppend {α : Type} (s : Slice α) (elems : List α) : Slice α :=
  match s, elems with
  | none, [] => none
  | none, x :: xs => some (x :: xs)
  | some l, es => some (l ++ es)

/-- Go `float64`, as its IEEE-754 bit pattern.  Floating-point addition is an
input of the functions that add. -/
structure Float64 where
  bits : Nat
deriving DecidableEq, Repr

/-- The value `0.0`. -/
def Float64.zero : Float64 := ⟨0⟩

/-- Go `int` on a 64-bit platform: the two's-complement value of `x`. -/
def wrapInt (x : Int) : Int := (x + 9223372036854775808) % 18446744073709551616 - 9223372036854775808

/-- The values of Go `int`. -/
abbrev inIntRange (x : Int) : Prop := -9223372036854775808 ≤ x ∧ x < 9223372036854775808

/-- Go `xml.Name`. -/
structure XmlName where
  Space : Bytes
  Local : Bytes
deriving DecidableEq, Repr

structure Environment where
  XMLName : XmlName
  NUnitVersion : Bytes
  ClrVersion : Bytes
  OsVersion : Bytes
  Platform : Bytes
  Cwd : Bytes
  MachineName : Bytes
  User : Bytes
  UserDomain : Bytes
deriving DecidableEq, Repr

structure Category where
  XMLName : XmlName
  Name : Bytes
deriving DecidableEq, Repr

structure Categories where
  Categories : List Category
deriving DecidableEq, Repr

structure Property where
  XMLName : XmlName
  Name : Bytes
  Value : Bytes
deriving DecidableEq, Repr

structure Properties where
  XMLName : XmlName
  Properties : List Property
deriving DecidableEq, Repr

structure Message where
  XMLName : XmlName
  Content : Bytes
deriving DecidableEq, Repr

structure StackTrace where
  XMLName : XmlName
  Content : Bytes
deriving DecidableEq, Repr

structure Failure where
  XMLName : XmlName
  Message : Option Message
  StackTrace : Option StackTrace
deriving DecidableEq, Repr

structure Reason where
  XMLName : XmlName
  Message : Option Message
deriving DecidableEq, Repr

structure TestCase where
  XMLName : XmlName
  Name : Bytes
  Description : Bytes
  Success : Bytes
  Time : Float64
  Executed : Bool
  Asserts : Int
  Categories : Option Categories
  Properties : Option Properties
  Failure : Option Failure
  Reason : Option Reason
deriving DecidableEq, Repr

/-- `TestSuite`.  `TestSuites` holds the suites the pointers of the Go slice
point to; `TestCases` is nil when the suite has no `results>test-case` child. -/
inductive TestSuite where
  | mk (XMLName : XmlName) (Name : Bytes) (Executed : Bool) (Success : Bool) (Time : Float64)
      (Asserts : Int) (Categories : Option Categories) (Properties : Option Properties)
      (Failure : Option Failure) (Reason : Option Reason)
      (TestSuites : List TestSuite) (TestCases : Slice TestCase)

/-- Field `Time` of a suite. -/
def TestSuite.Time : TestSuite → Float64
  | .mk _ _ _ _ time _ _ _ _ _ _ _ => time

/-- Field `TestSuites` of a suite. -/
def TestSuite.TestSuites : TestSuite → List TestSuite
  | .mk _ _ _ _ _ _ _ _ _ _ suites _ => suites

/-- Field `TestCases` of a suite. -/
def TestSuite.TestCases : TestSuite → Slice TestCase
  | .mk _ _ _ _ _ _ _ _ _ _ _ cases => cases

structure TestResults where
  XMLName : XmlName
  Name : Bytes
  Total : Int
  Errors : Int
  Failures : Int
  NotRun : Int
  Ignored : Int
  Skipped : Int
  Invalid : Int
  Environment : Option Environment
  TestSuite : Option TestSuite
  Time : Float64
  TestCases : Slice TestCase

mutual
/-- `TestSuite.InternalTestCases`: the suite's own test cases when the slice is
not nil, else the test cases of its nested suites, appended in order. -/
def TestSuite.InternalTestCases : TestSuite → Slice TestCase
  | .mk _ _ _ _ _ _ _ _ _ _ suites cases =>
    match cases with
    | some testCases => some testCases
    | none => InternalTestCases.range suites none
/-- The `for _, suite := range t.TestSuites` loop of `InternalTestCases`, with
the running value of `testCases`. -/
def InternalTestCases.range : List TestSuite → Slice TestCase → Slice TestCase
  | [], testCases => testCases
  | suite :: rest, testCases =>
      InternalTestCases.range rest (goAppend testCases suite.InternalTestCases.toList)
end

mutual
/-- Every test case of the tree in document order: the suite's own test cases,
then those of its nested suites from left to right. -/
def TestSuite.allTestCases : TestSuite → List TestCase
  | .mk _ _ _ _ _ _ _ _ _ _ suites cases => cases.toList ++ allTestCases.ofSuites suites
/-- Every test case of a list of suites in document order. -/
def allTestCases.ofSuites : List TestSuite → List TestCase
  | [] => []
  | suite :: rest => suite.allTestCases ++ allTestCases.ofSuites rest
end

mutual
/-- No suite of the tree has both direct test cases and nested suites. -/
def TestSuite.noMixed : TestSuite → Bool
  | .mk _ _ _ _ _ _ _ _ _ _ suites cases =>
      (cases.toList.isEmpty || suites.isEmpty) && noMixed.ofSuites suites
/-- `noMixed` for every suite of a list. -/
def noMixed.ofSuites : List TestSuite → Bool
  | [] => true
  | suite :: rest => suite.noMixed && noMixed.ofSuites rest
end

mutual
/-- No suite of the tree has both a non-nil `TestCases` slice and nested
suites. -/
def TestSuite.noNonNilMixed : TestSuite → Bool
  | .mk _ _ _ _ _ _ _ _ _ _ suites cases =>
      (cases.isNone || suites.isEmpty) && noNonNilMixed.ofSuites suites
/-- `noNonNilMixed` for every suite of a list. -/
def noNonNilMixed.ofSuites : List TestSuite → Bool
  | [] => true
  | suite :: rest => suite.noNonNilMixed && noNonNilMixed.ofSuites rest
end

/-- `NewTestResults`: `new(TestResults)`, every field at its zero value. -/
def NewTestResults : TestResults :=
  { XMLName := ⟨[], []⟩, Name := [], Total := 0, Errors := 0, Failures := 0, NotRun := 0,
    Ignored := 0, Skipped := 0, Invalid := 0, Environment := none, TestSuite := none,
    Time := Float64.zero, TestCases := none }

/-- `TestResults.Merge`.  The call takes two objects, the receiver `t` and
`another`; the result is the state of both after the call.  `fadd` is `float64`
addition. -/
def TestResults.Merge (fadd : Float64 → Float64 → Float64) (t another : TestResults) :
    TestResults × TestResults :=
  let t := { t with Total := wrapInt (t.Total + another.Total) }
  let t := { t with Errors := wrapInt (t.Errors + another.Errors) }
  let t := { t with Failures := wrapInt (t.Failures + another.Failures) }
  let t := { t with NotRun := wrapInt (t.NotRun + another.NotRun) }
  let t := { t with Ignored := wrapInt (t.Ignored + another.Ignored) }
  let t := { t with Skipped := wrapInt (t.Skipped + another.Skipped) }
  let t := { t with Invalid := wrapInt (t.Invalid + another.Invalid) }
  let t := { t with Time := fadd t.Time another.Time }
  let t := { t with TestCases := goAppend t.TestCases another.TestCases.toList }
  (t, another)

/-- Merge `rs` in order into `t`: the receiver afterwards, and the merged-in
objects as the calls left them. -/
def mergeInto (fadd : Float64 → Float64 → Float64) (t : TestResults) :
    List TestResults → TestResults × List TestResults
  | [] => (t, [])
  | r :: rest =>
      let step := t.Merge fadd r
      let done := mergeInto fadd step.1 rest
      (done.1, step.2 :: done.2)

/-- A suite whose attributes have their zero values, with the given nested
suites and test cases. -/
def suiteOf (suites : List TestSuite) (cases : Slice TestCase) : TestSuite :=
  .mk ⟨[], []⟩ [] false false Float64.zero 0 none none none none suites cases

/-- A test case with the given name and zero values elsewhere. -/
def caseNamed (name : Bytes) : TestCase :=
  { XMLName := ⟨[], []⟩, Name := name, Description := [], Success := [], Time := Float64.zero,
    Executed := false, Asserts := 0, Categories := none, Properties := none, Failure := none,
    Reason := none }

/-- Test results with the given counters and test cases, zero values
elsewhere. -/
def resultsOf (total errors failures notRun ignored skipped invalid : Int)
    (cases : Slice TestCase) : TestResults :=
  { NewTestResults with
      Total := total, Errors := errors, Failures := failures,
      NotRun := notRun, Ignored := ignored, Skipped := skipped, Invalid := invalid,
      TestCases := cases }

/-- The integer counters of `TestResults`. -/
def counterFields : List (TestResults → Int) :=
  [TestResults.Total, TestResults.Errors, TestResults.Failures, TestResults.NotRun,
    TestResults.Ignored, TestResults.Skipped, TestResults.Invalid]

end Nunit

/-! ## `path/filepath` on a slash-separated system -/

namespace Filepath

/-- `filepath.Split`: the path up to and including its final separator, and
what follows it. -/
def Split (path : Bytes) : Bytes × Bytes :=
  let file := (path.reverse.takeWhile (fun c => c != '/')).reverse
  (path.take (path.length - file.length), file)

/-- One path element read by `filepath.Clean`: empty elements and `.` are
dropped, `..` removes the element before it (or stays, in front of a path that
is not rooted), any other element is kept. -/
def cleanStep (rooted : Bool) (out : List Bytes) (elem : Bytes) : List Bytes :=
  if elem = [] ∨ elem = ['.'] then out
  else if elem = ['.', '.'] then
    match out.getLast? with
    | some top => if top = ['.', '.'] then out ++ [elem] else out.dropLast
    | none => if rooted then out else out ++ [elem]
  else out ++ [elem]

/-- The elements `filepath.Clean` keeps of a path. -/
def cleanElems (rooted : Bool) (path : Bytes) : List Bytes :=
  (stringsSplit path '/').foldl (cleanStep rooted) []

/-- `filepath.Clean`: the shortest path naming the same file by purely lexical
processing. -/
def Clean (path : Bytes) : Bytes :=
  match path with
  | [] => ['.']
  | c :: _ =>
    if c = '/' then '/' :: ['/'].intercalate (cleanElems true path)
    else if cleanElems false path = [] then ['.']
    else ['/'].intercalate (cleanElems false path)

/-- `filepath.Join`: the elements from the first non-empty one on, joined by
separators and cleaned. -/
def Join : List Bytes → Bytes
  | [] => []
  | e :: rest => if e = [] then Join rest else Clean (['/'].intercalate (e :: rest))

/-- `filepath.Dir`: all but the last element of the path, cleaned. -/
def Dir (path : Bytes) : Bytes := Clean (Split path).1

/-- `filepath.Base`: the last element of the path, trailing separators
removed first. -/
def Base (path : Bytes) : Bytes :=
  if path = [] then ['.']
  else
    let stripped := (path.reverse.dropWhile (fun c => c == '/')).reverse
    if (Split stripped).2 = [] then ['/'] else (Split stripped).2

end Filepath

namespace Server

/-! ## The file system as the download handler reads it -/

/-- The names from the root directory down to a file.  Relative paths are
resolved from the root: it is the working directory of the process. -/
abbrev Elems := List Bytes

/-- How the operating system resolves a path string. -/
def resolvePath (path : Bytes) : Elems := Filepath.cleanElems true path

/-- A file-system object: a regular file with its content, a file that
`os.Open` refuses to open, or a directory with its entries in the order
`readDirNames` returns them. -/
inductive Node where
  | file (data : Bytes)
  | locked
  | dir (entries : List (Bytes × Node))

mutual
/-- The object reached from a node by a sequence of names. -/
def Node.lookup : Node → Elems → Option Node
  | n, [] => some n
  | .dir es, c :: cs => Node.lookupIn es c cs
  | .file _, _ :: _ => none
  | .locked, _ :: _ => none
/-- `Node.lookup` through the entries of a directory. -/
def Node.lookupIn : List (Bytes × Node) → Bytes → Elems → Option Node
  | [], _, _ => none
  | (n, child) :: rest, c, cs => if n = c then child.lookup cs else Node.lookupIn rest c cs
end

/-- The result of `os.Stat` / `os.Lstat`: the object at the path, if any. -/
def osStat (fs : Node) (path : Bytes) : Option Node := fs.lookup (resolvePath path)

/-- A name a directory entry can have. -/
def validName (name : Bytes) : Bool :=
  !name.isEmpty && name != ['.'] && name != ['.', '.'] && !name.contains '/'

mutual
/-- Every entry below the node has a valid name. -/
def Node.valid : Node → Bool
  | .file _ => true
  | .locked => true
  | .dir es => Node.validIn es
/-- `Node.valid` for the entries of a directory. -/
def Node.validIn : List (Bytes × Node) → Bool
  | [] => true
  | (name, child) :: rest => validName name && child.valid && Node.validIn rest
end

mutual
/-- Every file below the node can be opened. -/
def Node.readable : Node → Bool
  | .file _ => true
  | .locked => false
  | .dir es => Node.readableIn es
/-- `Node.readable` for the entries of a directory. -/
def Node.readableIn : List (Bytes × Node) → Bool
  | [] => true
  | (_, child) :: rest => child.readable && Node.readableIn rest
end

mutual
/-- The regular files at and below a node, in walk order: for each the path
below the node (every name preceded by a separator) and the content. -/
def Node.files : Node → List (Bytes × Bytes)
  | .file data => [([], data)]
  | .locked => []
  | .dir es => Node.filesIn es
/-- `Node.files` for the entries of a directory. -/
def Node.filesIn : List (Bytes × Node) → List (Bytes × Bytes)
  | [] => []
  | (name, child) :: rest =>
      (child.files.map (fun f => ('/' :: name ++ f.1, f.2))) ++ Node.filesIn rest
end

/-! ## `server/artifacts.go`: `zipDirecotry` -/

/-- A code path that ends in a Go runtime panic instead of returning. -/
inductive Outcome (α : Type) where
  | ok (a : α)
  | panic (msg : String)
deriving DecidableEq, Repr

/-- An entry written to a `zip.Writer`: the name given to `Create` and the bytes
copied into it. -/
structure ZipEntry where
  Name : Bytes
  Data : Bytes
deriving DecidableEq, Repr

mutual
/-- `filepath.Walk` below `path` with the function literal of `zipDirecotry`:
`w` is what the zip writer holds so far.  A directory adds nothing and is
descended into; a file is opened and copied under the name
`dirName + path[len(source):]`; the first error ends the walk. -/
def walk (source dirName : Bytes) :
    Bytes → Node → List ZipEntry → Outcome (List ZipEntry × Option GoError)
  | path, .dir es, w => walkNames source dirName path es w
  | path, .locked, w => .ok (w, some ("open " ++ String.mk path ++ ": permission denied"))
  | path, .file data, w =>
      if source.length ≤ path.length then
        .ok (w ++ [{ Name := dirName ++ path.drop source.length, Data := data }], none)
      else .panic "slice bounds out of range"
/-- The loop of `filepath.Walk` over the names of a directory. -/
def walkNames (source dirName : Bytes) :
    Bytes → List (Bytes × Node) → List ZipEntry → Outcome (List ZipEntry × Option GoError)
  | _, [], w => .ok (w, none)
  | path, (name, child) :: rest, w =>
      match walk source dirName (Filepath.Join [path, name]) child w with
      | .ok (w1, none) => walkNames source dirName path rest w1
      | other => other
end

/-- What `zipDirecotry` returns, and the archive it left in the temporary
file. -/
structure ZipResult where
  name : Bytes
  err : Option GoError
  archive : List ZipEntry
deriving DecidableEq, Repr

/-- `zipDirecotry(source)`.  `tempFile` is the outcome of `ioutil.TempFile`;
the temporary file lies outside the tree that is walked. -/
def zipDirecotry (tempFile : Except GoError Bytes) (fs : Node) (source : Bytes) :
    Outcome ZipResult :=
  match tempFile with
  | .error e => .ok { name := [], err := some e, archive := [] }
  | .ok zipfile =>
    let dirName := (Filepath.Split source).2
    match osStat fs source with
    | none =>
        .ok { name := zipfile,
              err := some ("lstat " ++ String.mk source ++ ": no such file or directory"),
              archive := [] }
    | some node =>
      match walk source dirName source node [] with
      | .ok (w, err) => .ok { name := zipfile, err := err, archive := w }
      | .panic msg => .panic msg

/-! ## The server around the handlers -/

/-- A file inside a zip archive as `zip.NewReader` presents it: its name, the
error of `Open` if it cannot be opened, the bytes read from it, and the error
that ended the reading if it was not the end of the entry. -/
structure ZipFile where
  Name : Bytes
  openErr : Option GoError
  data : Bytes
  readErr : Option GoError
deriving DecidableEq, Repr

/-- What the handlers take from outside the package: `parseBuildId`, the
outcome of `ioutil.TempFile`, the bytes of the file a `zip.Writer` leaves for
given entries, and `zip.NewReader` on given bytes. -/
structure Env where
  parseBuildId : Bytes → Bytes
  tempFile : Except GoError Bytes
  zipBytes : List ZipEntry → Bytes
  zipNewReader : Bytes → Except GoError (List ZipFile)

/-- Modelled from the spec: the type `Server` is not part of the sources given;
`workingDir` is the root `<root>` of the sandbox layout. -/
structure Server where
  workingDir : Bytes
deriving DecidableEq, Repr

/-- Modelled from the spec: `Server.ArtifactFile` is not part of the sources
given; by the sandbox layout the uploaded artifact tree of a build is
`<root>/artifacts/<buildId>/`. -/
def Server.ArtifactFile (s : Server) (buildId file : Bytes) : Bytes :=
  Filepath.Join [s.workingDir, "artifacts".toList, buildId, file]

/-- Modelled from the spec: `Server.ChecksumFile` is not part of the sources
given; by the sandbox layout the checksum file of a build is
`<root>/artifacts/<buildId>.checksum`. -/
def Server.ChecksumFile (s : Server) (buildId : Bytes) : Bytes :=
  Filepath.Join [s.workingDir, "artifacts".toList, buildId ++ ".checksum".toList]

/-- The response written to the `http.ResponseWriter`. -/
structure Response where
  status : Nat
  body : Bytes
deriving DecidableEq, Repr

/-- Modelled from the spec: `Server.responseBadRequest` is not part of the
sources given; it answers with a bad-request response. -/
def Server.responseBadRequest (_s : Server) (err : GoError) : Response :=
  { status := 400, body := err.toList }

/-- Modelled from the spec: `Server.responseInternalError` is not part of the
sources given; it answers with an internal-server-error response. -/
def Server.responseInternalError (_s : Server) (err : GoError) : Response :=
  { status := 500, body := err.toList }

/-! ## `handleArtifactDownload` -/

/-- The part of a GET request the handler reads: `req.URL.Path` and the
key-value pairs of `req.URL.Query()` in order. -/
structure DownloadRequest where
  Path : Bytes
  Query : List (Bytes × Bytes)
deriving DecidableEq, Repr

/-- `req.URL.Query()[key]`: the values given for a key. -/
def queryValues (query : List (Bytes × Bytes)) (key : Bytes) : List Bytes :=
  (query.filter (fun kv => kv.1 = key)).map Prod.snd

/-- The value of `fullPath` in `handleArtifactDownload`. -/
def fullPath (s : Server) (buildId : Bytes) (file : List Bytes) : Bytes :=
  match file with
  | [f] => s.ArtifactFile buildId f
  | _ => s.ChecksumFile buildId

/-- `handleArtifactDownload`: the response, with status 200 when the handler
only copies to the writer. -/
def handleArtifactDownload (env : Env) (s : Server) (fs : Node) (req : DownloadRequest) :
    Outcome Response :=
  let buildId := env.parseBuildId req.Path
  let file := queryValues req.Query "file".toList
  let path := fullPath s buildId file
  match osStat fs path with
  | none =>
      .ok (s.responseBadRequest ("stat " ++ String.mk path ++ ": no such file or directory"))
  | some (.dir _) =>
      match zipDirecotry env.tempFile fs path with
      | .panic msg => .panic msg
      | .ok z =>
        match z.err with
        | some err => .ok (s.responseBadRequest err)
        | none => .ok { status := 200, body := env.zipBytes z.archive }
  | some .locked =>
      .ok (s.responseBadRequest ("open " ++ String.mk path ++ ": permission denied"))
  | some (.file data) => .ok { status := 200, body := data }

/-! ## The file system as the upload handler writes it -/

/-- What is stored at a resolved path. -/
inductive Obj where
  | file (data : Bytes)
  | dir
deriving DecidableEq, Repr

/-- The file system seen through single paths: the object, if any, at every
resolved path.  The root directory always exists. -/
abbrev Disk := Elems → Option Obj

/-- Store an object at a path. -/
def Disk.set (d : Disk) (p : Elems) (o : Obj) : Disk := fun q => if q = p then some o else d q

/-- The content of the regular file at a path; empty when there is none. -/
def Disk.content (d : Disk) (path : Bytes) : Bytes :=
  match d (resolvePath path) with
  | some (.file data) => data
  | _ => []

/-- `os.MkdirAll` for the names still to go below the directory `done`: a
missing directory is made, a regular file in the way is an error. -/
def mkdirAllFrom (d : Disk) (done : Elems) : List Bytes → Disk × Option GoError
  | [] => (d, none)
  | c :: rest =>
      match d (done ++ [c]) with
      | some (.file _) => (d, some "mkdir: not a directory")
      | some .dir => mkdirAllFrom d (done ++ [c]) rest
      | none => mkdirAllFrom (d.set (done ++ [c]) .dir) (done ++ [c]) rest

/-- `os.MkdirAll(path, 0755)`. -/
def osMkdirAll (d : Disk) (path : Bytes) : Disk × Option GoError :=
  mkdirAllFrom d [] (resolvePath path)

/-- `os.Create(name)`: the file is created or truncated; it is an error when the
path is a directory or its parent is not one. -/
def osCreate (d : Disk) (name : Bytes) : Disk × Option GoError :=
  if resolvePath name = [] then (d, some "open: is a directory")
  else if d (resolvePath name) = some .dir then (d, some "open: is a directory")
  else if (resolvePath name).dropLast ≠ [] ∧ d (resolvePath name).dropLast ≠ some .dir then
    (d, some "open: no such file or directory")
  else (d.set (resolvePath name) (.file []), none)

/-- Modelled from the spec: `Server.appendToFile` is not part of the sources
given; the checksum file is append-only, so the bytes are added at the end of
the file, which is created when missing. -/
def Server.appendToFile (_s : Server) (d : Disk) (filename : Bytes) (data : Bytes) :
    Disk × Option GoError :=
  if resolvePath filename = [] then (d, some "open: is a directory")
  else
    match d (resolvePath filename) with
    | some .dir => (d, some "open: is a directory")
    | some (.file old) => (d.set (resolvePath filename) (.file (old ++ data)), none)
    | none => (d.set (resolvePath filename) (.file data), none)

/-! ## `handleArtifactsUpload` -/

/-- A `multipart.Part`: its form name and what `ioutil.ReadAll` returns on it. -/
structure Part where
  FormName : Bytes
  ReadAll : Bytes × Option GoError
deriving DecidableEq, Repr

/-- A return of `form.NextPart()` other than `io.EOF`: a part, or a nil part
with an error. -/
inductive NextPart where
  | part (p : Part)
  | err (e : GoError)
deriving DecidableEq, Repr

/-- The part of a POST request the handler reads: `req.URL.Path`, and the
outcome of `req.MultipartReader()` with the returns of `NextPart` up to
`io.EOF`. -/
structure UploadRequest where
  Path : Bytes
  MultipartReader : Except GoError (List NextPart)

/-- `extractArtifactFile`. -/
def extractArtifactFile (file : ZipFile) (dest : Bytes) (d : Disk) : Disk × Option GoError :=
  match file.openErr with
  | some err => (d, some err)
  | none =>
    match osMkdirAll d (Filepath.Dir dest) with
    | (d1, some err) => (d1, some err)
    | (d1, none) =>
      match osCreate d1 dest with
      | (d2, some err) => (d2, some err)
      | (d2, none) =>
        -- io.Copy(destFile, rc)
        (d2.set (resolvePath dest) (.file file.data), file.readErr)

/-- The loop of `extractToArtifactDir` over `zipReader.File`. -/
def extractFiles (s : Server) (buildId : Bytes) : List ZipFile → Disk → Disk × Option GoError
  | [], d => (d, none)
  | file :: rest, d =>
      match extractArtifactFile file (s.ArtifactFile buildId file.Name) d with
      | (d1, some err) => (d1, some err)
      | (d1, none) => extractFiles s buildId rest d1

/-- `extractToArtifactDir`. -/
def extractToArtifactDir (env : Env) (s : Server) (buildId : Bytes) (part : Part) (d : Disk) :
    Disk × Option GoError :=
  match part.ReadAll with
  | (_, some err) => (d, some err)
  | (data, none) =>
    match env.zipNewReader data with
    | .error err => (d, some err)
    | .ok files => extractFiles s buildId files d

/-- The `for` loop of `handleArtifactsUpload` over the returns of `NextPart`.
A return with an error other than `io.EOF` has a nil part, and the call
`part.FormName()` panics. -/
def uploadParts (env : Env) (s : Server) (buildId : Bytes) :
    List NextPart → Disk → Disk × Outcome Response
  | [], d => (d, .ok { status := 201, body := [] })
  | .err _ :: _, d => (d, .panic "invalid memory address or nil pointer dereference")
  | .part part :: rest, d =>
      if part.FormName = "zipfile".toList then
        match extractToArtifactDir env s buildId part d with
        | (d1, some err) => (d1, .ok (s.responseInternalError err))
        | (d1, none) => uploadParts env s buildId rest d1
      else if part.FormName = "file_checksum".toList then
        match part.ReadAll with
        | (_, some err) => (d, .ok (s.responseInternalError err))
        | (bytes, none) =>
          match s.appendToFile d (s.ChecksumFile buildId) bytes with
          | (d1, some err) => (d1, .ok (s.responseInternalError err))
          | (d1, none) => uploadParts env s buildId rest d1
      else uploadParts env s buildId rest d

/-- `handleArtifactsUpload`: the file system afterwards and the response. -/
def handleArtifactsUpload (env : Env) (s : Server) (d : Disk) (req : UploadRequest) :
    Disk × Outcome Response :=
  let buildId := env.parseBuildId req.Path
  match req.MultipartReader with
  | .error err => (d, .ok (s.responseBadRequest err))
  | .ok form => uploadParts env s buildId form d

/-- A sequence of upload requests handled one after another: the file system
afterwards and the responses. -/
def handleUploads (env : Env) (s : Server) : Disk → List UploadRequest →
    Disk × List (Outcome Response)
  | d, [] => (d, [])
  | d, req :: rest =>
      let r := handleArtifactsUpload env s d req
      let rs := handleUploads env s r.1 rest
      (rs.1, r.2 :: rs.2)

/-- An environment for examples: the build id is the last element of the URL
path, the temporary file is `tmp.zip1`, an archive is written as `name=data;`
for every entry, and every zip part decodes to the given files. -/
def demoEnv (files : List ZipFile) : Env :=
  { parseBuildId := Filepath.Base,
    tempFile := .ok "tmp.zip1".toList,
    zipBytes := fun es => (es.map (fun e => e.Name ++ ['='] ++ e.Data ++ [';'])).flatten,
    zipNewReader := fun _ => .ok files }

/-- A file system for examples: build 7 of the server at `/srv` has the
artifacts `a.txt` and `d/b.txt` and a checksum file. -/
def demoTree : Node :=
  .dir [("srv".toList, .dir [("artifacts".toList, .dir
    [("7".toList, .dir [("a.txt".toList, .file "A".toList),
                        ("d".toList, .dir [("b.txt".toList, .file "B".toList)])]),
     ("7.checksum".toList, .file "a.txt=1\n".toList)])])]

/-- A disk for examples: build 7 of the server at `/srv` has a checksum file
with one line and no artifacts yet. -/
def demoDisk : Disk :=
  Disk.set (Disk.set (Disk.set (fun _ => none) ["srv".toList] .dir)
      ["srv".toList, "artifacts".toList] .dir)
    ["srv".toList, "artifacts".toList, "7.checksum".toList] (.file "a.txt=1\n".toList)

/-- A readable zip entry with the given name and content. -/
def zipFileOf (name data : Bytes) : ZipFile :=
  { Name := name, openErr := none, data := data, readErr := none }

/-- A part with the given form name whose body is read without error. -/
def partOf (formName body : Bytes) : NextPart :=
  .part { FormName := formName, ReadAll := (body, none) }

/-- The bodies of the `file_checksum` parts among the returns of `NextPart`. -/
def checksumBodies : List NextPart → List Bytes
  | [] => []
  | .err _ :: rest => checksumBodies rest
  | .part p :: rest =>
      if p.FormName = "file_checksum".toList then p.ReadAll.1 :: checksumBodies rest
      else checksumBodies rest

/-- The bodies of the `file_checksum` parts of a request. -/
def requestChecksums (req : UploadRequest) : List Bytes :=
  match req.MultipartReader with
  | .error _ => []
  | .ok form => checksumBodies form

/-- The destination paths of the entries of every `zipfile` part that is read
and decoded without error. -/
def zipDests (env : Env) (s : Server) (buildId : Bytes) : List NextPart → List Bytes
  | [] => []
  | .err _ :: rest => zipDests env s buildId rest
  | .part p :: rest =>
      (if p.FormName = "zipfile".toList ∧ p.ReadAll.2 = none then
        match env.zipNewReader p.ReadAll.1 with
        | .ok files => files.map (fun f => s.ArtifactFile buildId f.Name)
        | .error _ => []
      else []) ++ zipDests env s buildId rest

/-- The destination paths of the zip entries of a request. -/
def requestDests (env : Env) (s : Server) (buildId : Bytes) (req : UploadRequest) : List Bytes :=
  match req.MultipartReader with
  | .error _ => []
  | .ok form => zipDests env s buildId form

/-- Extracting to `dest` leaves the path `target` alone: `dest` is another
path, and `target` is not the directory of `dest` or one above it. -/
def sparesPath (target : Elems) (dest : Bytes) : Bool :=
  resolvePath dest != target && !(target.isPrefixOf (resolvePath (Filepath.Dir dest)))

/-- A return of `NextPart` that cannot end the request early: a part that is
not a zip file and, if it is a `file_checksum` part, is read without error. -/
def NextPart.benign : NextPart → Bool
  | .err _ => false
  | .part p =>
      p.FormName != "zipfile".toList
        && (p.FormName != "file_checksum".toList || p.ReadAll.2.isNone)

/-- The zip files can all be extracted below the artifact directory of a build:
every entry can be opened and read; the destinations are distinct paths ending
in a file name; no destination is a directory on the disk, or the directory of
another destination or above it; and no regular file stands where a directory
is needed. -/
abbrev extractable (s : Server) (buildId : Bytes) (d : Disk) (files : List ZipFile) : Prop :=
  (∀ f ∈ files, f.openErr = none ∧ f.readErr = none)
    ∧ (files.map (fun f => resolvePath (s.ArtifactFile buildId f.Name))).Nodup
    ∧ (∀ f ∈ files, validName (Filepath.Split (s.ArtifactFile buildId f.Name)).2 = true)
    ∧ (∀ f ∈ files, d (resolvePath (s.ArtifactFile buildId f.Name)) ≠ some .dir)
    ∧ (∀ f ∈ files, ∀ g ∈ files,
        ¬ resolvePath (s.ArtifactFile buildId f.Name)
            <+: resolvePath (Filepath.Dir (s.ArtifactFile buildId g.Name)))
    ∧ (∀ f ∈ files, ∀ q ∈ (resolvePath (Filepath.Dir (s.ArtifactFile buildId f.Name))).inits,
        d q = none ∨ d q = some .dir)

end Server

namespace Nunit

/-! ## `nunit/xml_report.go`: `Read` and `GenerateNUnitTestReport` -/

/-- What `Read` and `GenerateNUnitTestReport` take from outside the package:
`os.Stat` (an error, or whether the path is a directory), `ioutil.ReadFile`,
and `xml.Unmarshal(data, results)` with the value it leaves in `results` and
the error it returns. -/
structure Files where
  stat : Bytes → Except GoError Bool
  readFile : Bytes → Except GoError Bytes
  unmarshal : Bytes → TestResults → TestResults × Option GoError

/-- `Read(f)`: the named results `(results, err)`, with `none` for a nil
`results`.  After a successful `xml.Unmarshal` the code reads
`results.TestSuite.Time` without a check, which panics on a nil pointer. -/
def Read (files : Files) (f : Bytes) : Server.Outcome (Option TestResults × Option GoError) :=
  match files.readFile f with
  | .error err => .ok (none, some err)
  | .ok data =>
    match files.unmarshal data NewTestResults with
    | (results, some err) => .ok (some results, some err)
    | (results, none) =>
      match results.TestSuite with
      | none => .panic "invalid memory address or nil pointer dereference"
      | some suite =>
        let results := { results with Time := suite.Time }
        let results := { results with TestCases := suite.InternalTestCases }
        .ok (some results, none)

/-- `GenerateNUnitTestReport(result, path)`: the object `result` after the call
and the error returned.  `fadd` is `float64` addition. -/
def GenerateNUnitTestReport (fadd : Float64 → Float64 → Float64) (files : Files)
    (result : TestResults) (path : Bytes) : Server.Outcome (TestResults × Option GoError) :=
  match files.stat path with
  | .error err => .ok (result, some err)
  | .ok true => .ok (result, none)
  | .ok false =>
    match Read files path with
    | .panic msg => .panic msg
    | .ok (_, some err) => .ok (result, some err)
    | .ok (some suite, none) => .ok ((result.Merge fadd suite).1, none)
    | .ok (none, none) => .panic "invalid memory address or nil pointer dereference"

/-- Files for examples: every path is a regular file holding the document
`<test-results></test-results>`, which `xml.Unmarshal` decodes without error
into a value that has the element name and no test suite; other content is
refused. -/
def demoFiles : Files :=
  { stat := fun _ => .ok false,
    readFile := fun _ => .ok "<test-results></test-results>".toList,
    unmarshal := fun data results =>
      if data = "<test-results></test-results>".toList then
        ({ results with XMLName := ⟨[], "test-results".toList⟩ }, none)
      else (results, some "EOF") }

end Nunit

/-! # Theorems -/

/-! ## `strings.Split` -/

theorem splitLoop_ne_nil (sep : Char) (s cur : Bytes) : splitLoop sep s cur ≠ [] := by
  induction s generalizing cur with
  | nil => simp [splitLoop]
  | cons c rest ih =>
    unfold splitLoop
    split
    · simp
    · exact ih _

theorem splitLoop_intercalate (sep : Char) (s cur : Bytes) :
    [sep].intercalate (splitLoop sep s cur) = cur ++ s := by
  induction s generalizing cur with
  | nil => simp [splitLoop, List.intercalate]
  | cons c rest ih =>
    unfold splitLoop
    by_cases h : c = sep
    · have h2 := ih []
      cases hr : splitLoop sep rest [] with
      | nil => exact absurd hr (splitLoop_ne_nil sep rest [])
      | cons a as =>
        rw [hr] at h2
        simp [h, List.intercalate] at h2 ⊢
        rw [← h2]
    · simp [h, ih]

theorem splitLoop_no_sep (sep : Char) (s cur : Bytes) (hcur : sep ∉ cur) :
    ∀ seg ∈ splitLoop sep s cur, sep ∉ seg := by
  induction s generalizing cur with
  | nil => simp [splitLoop, hcur]
  | cons c rest ih =>
    unfold splitLoop
    by_cases h : c = sep
    · simp only [h, if_true, List.mem_cons]
      rintro seg (rfl | hseg)
      · exact hcur
      · exact ih [] (by simp) seg hseg
    · simp only [h, if_false]
      apply ih
      simp [hcur, Ne.symm h]

namespace Agent

/-! ## Timestamps -/

theorem digitChar_isDigit (n : Nat) : (digitChar n).isDigit = true := by
  unfold digitChar
  split <;> rfl

theorem format_length (t : Time) : t.Format.length = 12 := by
  simp [Time.Format, appendInt2, formatNano3]

theorem format_isTimestamp (t : Time) : isTimestamp t.Format = true := by
  simp [Time.Format, appendInt2, formatNano3, isTimestamp, digitChar_isDigit]

/-! ## The worker loop -/

theorem run_writes (w : Worker) (frags : List Bytes) (h : w.closed = false) :
    w.run (frags.map Event.write)
      = { w with console := { w.console with Buffer := w.console.Buffer ++ frags.flatten } } := by
  induction frags generalizing w with
  | nil => simp [Worker.run]
  | cons f fs ih =>
    have hstep : (w.step (Event.write f)).closed = false := by simp [Worker.step, h]
    have := ih (w.step (Event.write f)) hstep
    simp only [Worker.run, List.map_cons, List.foldl_cons] at this ⊢
    rw [this]
    simp [Worker.step, h, List.append_assoc]

theorem run_append (w : Worker) (es fs : List Event) : w.run (es ++ fs) = (w.run es).run fs := by
  simp [Worker.run, List.foldl_append]

theorem lines_flatten (now : Nat → Time) (segs : List (Nat × Bytes)) :
    ((segs.map (fun p => lineFragments now p.1 p.2)).flatten).flatten
      = (segs.map (fun p => (now p.1).Format ++ [' '] ++ p.2 ++ ['\n'])).flatten := by
  induction segs with
  | nil => rfl
  | cons p ps ih =>
    simp only [List.map_cons, List.flatten_cons, List.flatten_append, ih]
    simp [lineFragments]

/-- C1: a `Write(data)` by a single writer on a running console, with no flush
in between, appends to the buffer, for each segment of `data` split on the
newline byte and in that order, the twelve-byte timestamp `HH:MM:SS.mmm`, one
space, the segment and a newline; the segments are the newline-free pieces of
`data`, and `Write` returns `(len(data), nil)`. -/
theorem write_appends_timestamped_lines (w : Worker) (now : Nat → Time) (data : Bytes)
    (hrun : w.closed = false) :
    (w.run ((BuildConsole.Write now data).1.map Event.write)).console.Buffer
        = w.console.Buffer ++
          (((stringsSplit data '\n').enum.map
            (fun p => (now p.1).Format ++ [' '] ++ p.2 ++ ['\n'])).flatten)
      ∧ (∀ i, isTimestamp (now i).Format = true ∧ (now i).Format.length = 12)
      ∧ ['\n'].intercalate (stringsSplit data '\n') = data
      ∧ (∀ seg ∈ stringsSplit data '\n', '\n' ∉ seg)
      ∧ (w.run ((BuildConsole.Write now data).1.map Event.write)).puts = w.puts
      ∧ (BuildConsole.Write now data).2 = (data.length, none) := by
  have hW : (BuildConsole.Write now data).1 = Write.sends now data := rfl
  rw [hW]
  refine ⟨?_, fun i => ⟨format_isTimestamp _, format_length _⟩, ?_, ?_, ?_, rfl⟩
  · rw [run_writes w _ hrun]
    simp only [Write.sends, Write.lines]
    rw [lines_flatten]
  · simpa [stringsSplit] using splitLoop_intercalate '\n' data []
  · exact splitLoop_no_sep '\n' data [] (by simp)
  · rw [run_writes w _ hrun]

/-- Witness for C1: writing `ab\ncd` at 12:34:56.789 and one millisecond later. -/
theorem write_appends_timestamped_lines_witness :
    ((MakeBuildConsole "u".toList).run
        ((BuildConsole.Write (fun i => ⟨45296789000000 + i * 1000000⟩) "ab\ncd".toList).1.map
          Event.write)).console.Buffer
      = "12:34:56.789 ab\n12:34:56.790 cd\n".toList := by
  have h := (write_appends_timestamped_lines (MakeBuildConsole "u".toList)
    (fun i => ⟨45296789000000 + i * 1000000⟩) "ab\ncd".toList rfl).1
  rw [h]
  decide

/-- C2: whatever the buffer holds and whatever `HttpClient.Do` returns (a
response or an error), the buffer is empty after `Flush`; an error is only
logged, and the worker that called `Flush` on a tick keeps running. -/
theorem flush_resets_buffer_on_any_outcome (w : Worker) (result : HttpResult) :
    (w.console.Flush result).1.Buffer = []
      ∧ (w.console.Flush result).2.logged
          = (if w.console.Buffer = [] then none
             else result.err.map (fun e => "build console flush failed: " ++ e))
      ∧ (w.step (Event.tick result)).closed = w.closed
      ∧ (w.step (Event.tick result)).console.Buffer
          = (if w.closed then w.console.Buffer else []) := by
  have hb : (w.console.Flush result).1.Buffer = [] := by
    unfold BuildConsole.Flush
    split
    · next h => simpa using h
    · rfl
  refine ⟨hb, ?_, ?_, ?_⟩
  · unfold BuildConsole.Flush
    by_cases h : w.console.Buffer = [] <;> simp [h]
  · cases hc : w.closed <;> simp [Worker.step, hc, Worker.afterFlush]
  · cases hc : w.closed <;> simp [Worker.step, hc, Worker.afterFlush, hb]

theorem step_closed (w : Worker) (e : Event) (h : w.closed = true) : w.step e = w := by
  cases e <;> simp [Worker.step, h]

theorem step_open_of_open (w : Worker) (e : Event) (h : (w.step e).closed = false) :
    w.closed = false := by
  cases hc : w.closed with
  | false => rfl
  | true => rw [step_closed w e hc] at h; rw [hc] at h; exact h

theorem sinceFlush_snoc (events : List Event) (e : Event) :
    sinceFlush (events ++ [e])
      = match e with
        | .write log => sinceFlush events ++ log
        | .stop _ => []
        | .tick _ => [] := by
  simp only [sinceFlush, List.foldl_append, List.foldl_cons, List.foldl_nil]

theorem flush_url (c : BuildConsole) (r : HttpResult) : (c.Flush r).1.Url = c.Url := by
  unfold BuildConsole.Flush
  split <;> rfl

theorem flush_buffer (c : BuildConsole) (r : HttpResult) : (c.Flush r).1.Buffer = [] := by
  unfold BuildConsole.Flush
  split
  · next h => simpa using h
  · rfl

theorem run_buffer_sinceFlush (url : Bytes) (events : List Event)
    (hrun : ((MakeBuildConsole url).run events).closed = false) :
    ((MakeBuildConsole url).run events).console.Buffer = sinceFlush events
      ∧ ((MakeBuildConsole url).run events).console.Url = url := by
  induction events using List.reverseRecOn with
  | nil => exact ⟨rfl, rfl⟩
  | append_singleton es e ih =>
    rw [run_append] at hrun ⊢
    simp only [Worker.run, List.foldl_cons, List.foldl_nil] at hrun ⊢
    have hopen := step_open_of_open _ e hrun
    obtain ⟨hb, hu⟩ := ih hopen
    simp only [Worker.run] at hb hu hopen
    rw [sinceFlush_snoc]
    cases e with
    | write log => simp [Worker.step, hopen, hb, hu]
    | stop r => simp [Worker.step, hopen] at hrun
    | tick r =>
      simp only [Worker.step, hopen, Worker.afterFlush]
      exact ⟨flush_buffer _ _, by simpa [flush_url] using hu⟩

/-- C3 (refuted as stated): a write, a flush whose PUT fails, a second
write and a flush.  The second PUT carries only the second write, while the
bytes appended since the previous successful flush are both writes. -/
theorem flush_body_since_successful_flush_counterexample :
    (((MakeBuildConsole "u".toList).run
        [Event.write "a".toList, Event.tick ⟨0, some "connection refused"⟩,
         Event.write "b".toList, Event.tick ⟨1, none⟩]).puts.map Request.Body
        = ["a".toList, "b".toList])
      ∧ sinceSuccessfulFlush
          [Event.write "a".toList, Event.tick ⟨0, some "connection refused"⟩,
           Event.write "b".toList] = "ab".toList
      ∧ (((MakeBuildConsole "u".toList).run
          [Event.write "a".toList, Event.tick ⟨0, some "connection refused"⟩,
           Event.write "b".toList, Event.tick ⟨1, none⟩]).puts.getLast?.map Request.Body
          ≠ some (sinceSuccessfulFlush
            [Event.write "a".toList, Event.tick ⟨0, some "connection refused"⟩,
             Event.write "b".toList])) := by
  decide

/-- C3 (amended): on a console made by `MakeBuildConsole` whose worker is
running, a flush sends no request when nothing was appended since the previous
flush, and otherwise exactly one PUT whose body is the bytes appended since the
previous flush, whatever the outcome of that flush was; the buffer is empty
afterwards. -/
theorem flush_body_is_bytes_since_previous_flush (url : Bytes) (events : List Event)
    (result : HttpResult) (hrun : ((MakeBuildConsole url).run events).closed = false) :
    ((MakeBuildConsole url).run (events ++ [Event.tick result])).puts
        = ((MakeBuildConsole url).run events).puts ++
            (if sinceFlush events = [] then []
             else [{ Method := "PUT", URL := url, Body := sinceFlush events,
                     ContentLength := (sinceFlush events).length, Close := true }])
      ∧ ((MakeBuildConsole url).run (events ++ [Event.tick result])).console.Buffer = [] := by
  obtain ⟨hb, hu⟩ := run_buffer_sinceFlush url events hrun
  rw [run_append]
  simp only [Worker.run, List.foldl_cons, List.foldl_nil] at hrun hb hu ⊢
  simp only [Worker.step, hrun, Worker.afterFlush]
  refine ⟨?_, flush_buffer _ _⟩
  unfold BuildConsole.Flush
  by_cases h : sinceFlush events = []
  · simp [hb, h]
  · simp [hb, hu, h]

/-- Witness for C3 (amended): after a failed flush of `a`, the next flush sends
only `b`. -/
theorem flush_body_is_bytes_since_previous_flush_witness :
    ((MakeBuildConsole "u".toList).run
        ([Event.write "a".toList, Event.tick ⟨0, some "connection refused"⟩,
          Event.write "b".toList] ++ [Event.tick ⟨1, none⟩])).puts
      = ((MakeBuildConsole "u".toList).run
          [Event.write "a".toList, Event.tick ⟨0, some "connection refused"⟩,
           Event.write "b".toList]).puts ++
          [{ Method := "PUT", URL := "u".toList, Body := "b".toList,
             ContentLength := 1, Close := true }] := by
  have h := (flush_body_is_bytes_since_previous_flush "u".toList
    [Event.write "a".toList, Event.tick ⟨0, some "connection refused"⟩,
     Event.write "b".toList] ⟨1, none⟩ (by decide)).1
  rw [h]
  decide

/-! ## Two concurrent writers -/

theorem interleave_filter_left {α : Type} (sched : List Bool) (xs ys : List α) :
    ((interleave sched (xs.map (Prod.mk 0)) (ys.map (Prod.mk 1))).filter
        (fun p => decide (p.1 = 0))).map Prod.snd = xs := by
  induction sched generalizing xs ys with
  | nil =>
    cases xs <;> cases ys <;> simp [interleave, List.filter_map, Function.comp_def]
  | cons b s ih =>
    cases xs with
    | nil => simp [interleave, List.filter_map, Function.comp_def]
    | cons x xs =>
      cases ys with
      | nil => simp [interleave, List.filter_map, Function.comp_def]
      | cons y ys =>
        cases b with
        | true => simpa [interleave] using ih xs (y :: ys)
        | false => simpa [interleave] using ih (x :: xs) ys

theorem interleave_filter_right {α : Type} (sched : List Bool) (xs ys : List α) :
    ((interleave sched (xs.map (Prod.mk 0)) (ys.map (Prod.mk 1))).filter
        (fun p => decide (p.1 = 1))).map Prod.snd = ys := by
  induction sched generalizing xs ys with
  | nil =>
    cases xs <;> cases ys <;> simp [interleave, List.filter_map, Function.comp_def]
  | cons b s ih =>
    cases xs with
    | nil => simp [interleave, List.filter_map, Function.comp_def]
    | cons x xs =>
      cases ys with
      | nil => simp [interleave, List.filter_map, Function.comp_def]
      | cons y ys =>
        cases b with
        | true => simpa [interleave] using ih xs (y :: ys)
        | false => simpa [interleave] using ih (x :: xs) ys

theorem interleave_replicate_true {α : Type} (xs ys : List α) :
    interleave (List.replicate xs.length true) xs ys = xs ++ ys := by
  induction xs with
  | nil => cases ys <;> simp [interleave]
  | cons x xs ih =>
    cases ys with
    | nil => simp [interleave]
    | cons y ys => simp [List.replicate_succ, interleave, ih]

/-- C9 (refuted as stated): two concurrent writes of `a` and `b` whose
sends alternate on the channel.  The buffer then holds both timestamps, both
spaces, both lines and both newlines in pairs, and the four fragments of the
line of the first call are not adjacent. -/
theorem concurrent_writes_adjacent_counterexample :
    ((MakeBuildConsole "u".toList).run
        ((receivedFrom [true, false, true, false, true, false, true, false]
            (Write.sends (fun _ => ⟨45296789000000⟩) "a".toList)
            (Write.sends (fun _ => ⟨45296789000000⟩) "b".toList)).map
          (fun p => Event.write p.2))).console.Buffer
        = "12:34:56.78912:34:56.789  ab\n\n".toList
      ∧ ¬ LinesAdjacent 0 (Write.lines (fun _ => ⟨45296789000000⟩) "a".toList)
          (receivedFrom [true, false, true, false, true, false, true, false]
            (Write.sends (fun _ => ⟨45296789000000⟩) "a".toList)
            (Write.sends (fun _ => ⟨45296789000000⟩) "b".toList)) := by
  refine ⟨by decide, ?_⟩
  intro h
  have h1 := h (lineFragments (fun _ => ⟨45296789000000⟩) 0 "a".toList) (by decide)
  revert h1
  decide

/-- C9 (amended): for every schedule of the sends of two concurrent `Write`
calls, the buffer receives every fragment whole, and the fragments of each call
in the order that call sent them; when the calls do not overlap (the first
sends all its fragments before the second starts), the four fragments of every
line of both calls are adjacent. -/
theorem concurrent_writes_keep_call_order (w : Worker) (sched : List Bool)
    (nowA nowB : Nat → Time) (a b : Bytes) (hrun : w.closed = false) :
    (w.run ((receivedFrom sched (Write.sends nowA a) (Write.sends nowB b)).map
        (fun p => Event.write p.2))).console.Buffer
        = w.console.Buffer ++
          ((receivedFrom sched (Write.sends nowA a) (Write.sends nowB b)).map Prod.snd).flatten
      ∧ ((receivedFrom sched (Write.sends nowA a) (Write.sends nowB b)).filter
          (fun p => decide (p.1 = 0))).map Prod.snd = Write.sends nowA a
      ∧ ((receivedFrom sched (Write.sends nowA a) (Write.sends nowB b)).filter
          (fun p => decide (p.1 = 1))).map Prod.snd = Write.sends nowB b
      ∧ LinesAdjacent 0 (Write.lines nowA a)
          (receivedFrom (List.replicate (Write.sends nowA a).length true)
            (Write.sends nowA a) (Write.sends nowB b))
      ∧ LinesAdjacent 1 (Write.lines nowB b)
          (receivedFrom (List.replicate (Write.sends nowA a).length true)
            (Write.sends nowA a) (Write.sends nowB b)) := by
  refine ⟨?_, interleave_filter_left _ _ _, interleave_filter_right _ _ _, ?_, ?_⟩
  · have := run_writes w ((receivedFrom sched (Write.sends nowA a)
      (Write.sends nowB b)).map Prod.snd) hrun
    rw [List.map_map] at this
    have hf : (Event.write ∘ Prod.snd : Nat × Bytes → Event) = fun p => Event.write p.2 := rfl
    rw [hf] at this
    rw [this]
  · intro l hl
    have hrecv : receivedFrom (List.replicate (Write.sends nowA a).length true)
        (Write.sends nowA a) (Write.sends nowB b)
        = (Write.sends nowA a).map (Prod.mk 0) ++ (Write.sends nowB b).map (Prod.mk 1) := by
      have := interleave_replicate_true ((Write.sends nowA a).map (Prod.mk 0))
        ((Write.sends nowB b).map (Prod.mk 1))
      simpa [receivedFrom] using this
    rw [hrecv]
    have hin : l <:+: Write.sends nowA a := List.infix_of_mem_flatten hl
    exact List.IsInfix.trans (List.IsInfix.map _ hin) (List.infix_append' [] _ _)
  · intro l hl
    have hrecv : receivedFrom (List.replicate (Write.sends nowA a).length true)
        (Write.sends nowA a) (Write.sends nowB b)
        = (Write.sends nowA a).map (Prod.mk 0) ++ (Write.sends nowB b).map (Prod.mk 1) := by
      have := interleave_replicate_true ((Write.sends nowA a).map (Prod.mk 0))
        ((Write.sends nowB b).map (Prod.mk 1))
      simpa [receivedFrom] using this
    rw [hrecv]
    have hin : l <:+: Write.sends nowB b := List.infix_of_mem_flatten hl
    exact List.IsInfix.trans (List.IsInfix.map _ hin) (List.suffix_append _ _).isInfix

/-- Witness for C9 (amended): a running console and two calls writing `a` and
`b`, received in alternation. -/
theorem concurrent_writes_keep_call_order_witness :
    ((receivedFrom [true, false, true, false] (Write.sends (fun _ => ⟨0⟩) "a".toList)
        (Write.sends (fun _ => ⟨0⟩) "b".toList)).filter
      (fun p => decide (p.1 = 0))).map Prod.snd = Write.sends (fun _ => ⟨0⟩) "a".toList :=
  (concurrent_writes_keep_call_order (MakeBuildConsole "u".toList) [true, false, true, false]
    (fun _ => ⟨0⟩) (fun _ => ⟨0⟩) "a".toList "b".toList rfl).2.1

end Agent

namespace Nunit

/-! ## `TestResults.Merge` -/

theorem wrapInt_add_left (a b : Int) : wrapInt (wrapInt a + b) = wrapInt (a + b) := by
  unfold wrapInt
  omega

theorem wrapInt_of_inIntRange (x : Int) (h : inIntRange x) : wrapInt x = x := by
  unfold inIntRange at h
  unfold wrapInt
  omega

theorem goAppend_toList {α : Type} (s : Slice α) (elems : List α) :
    (goAppend s elems).toList = s.toList ++ elems := by
  cases s <;> cases elems <;> simp [goAppend, Slice.toList]

theorem merge_counter (fadd : Float64 → Float64 → Float64) (f : TestResults → Int)
    (hf : f ∈ counterFields) (t r : TestResults) :
    f (t.Merge fadd r).1 = wrapInt (f t + f r) := by
  simp only [counterFields, List.mem_cons, List.mem_singleton, List.not_mem_nil, or_false] at hf
  rcases hf with h | h | h | h | h | h | h <;> subst h <;> rfl

theorem mergeInto_counter (fadd : Float64 → Float64 → Float64) (f : TestResults → Int)
    (hf : f ∈ counterFields) (rs : List TestResults) (t : TestResults)
    (ht : wrapInt (f t) = f t) :
    f (mergeInto fadd t rs).1 = wrapInt (f t + (rs.map f).sum) := by
  induction rs generalizing t with
  | nil => simpa [mergeInto] using ht.symm
  | cons r rest ih =>
    have hstep := merge_counter fadd f hf t r
    have h1 : wrapInt (f (t.Merge fadd r).1) = f (t.Merge fadd r).1 := by
      rw [hstep]
      have := wrapInt_add_left (f t + f r) 0
      simpa using this
    have := ih (t.Merge fadd r).1 h1
    simp only [mergeInto, List.map_cons, List.sum_cons]
    rw [this, hstep, wrapInt_add_left, add_assoc]

theorem mergeInto_testCases (fadd : Float64 → Float64 → Float64) (rs : List TestResults)
    (t : TestResults) :
    (mergeInto fadd t rs).1.TestCases.toList
      = t.TestCases.toList ++ (rs.map (fun r => r.TestCases.toList)).flatten := by
  induction rs generalizing t with
  | nil => simp [mergeInto]
  | cons r rest ih =>
    simp only [mergeInto, List.map_cons, List.flatten_cons]
    rw [ih]
    simp [TestResults.Merge, goAppend_toList, List.append_assoc]

theorem mergeInto_unchanged (fadd : Float64 → Float64 → Float64) (rs : List TestResults)
    (t : TestResults) : (mergeInto fadd t rs).2 = rs := by
  induction rs generalizing t with
  | nil => rfl
  | cons r rest ih => simp [mergeInto, ih, TestResults.Merge]

/-- C5: merging `r1..rn` in order into a fresh `NewTestResults()` leaves in
every integer counter the sum of that counter over `r1..rn` reduced to Go `int`,
which is the sum itself when it does not overflow; `TestCases` is the
concatenation of their test cases in merge order; and every merged-in `ri` is
unchanged. -/
theorem merge_sums_counters_and_concatenates (fadd : Float64 → Float64 → Float64)
    (rs : List TestResults) :
    (∀ f ∈ counterFields,
        f (mergeInto fadd NewTestResults rs).1 = wrapInt ((rs.map f).sum)
          ∧ (inIntRange ((rs.map f).sum) → f (mergeInto fadd NewTestResults rs).1 = (rs.map f).sum))
      ∧ (mergeInto fadd NewTestResults rs).1.TestCases.toList
          = (rs.map (fun r => r.TestCases.toList)).flatten
      ∧ (mergeInto fadd NewTestResults rs).2 = rs := by
  refine ⟨?_, ?_, mergeInto_unchanged fadd rs _⟩
  · intro f hf
    have h0 : f NewTestResults = 0 := by
      simp only [counterFields, List.mem_cons, List.mem_singleton, List.not_mem_nil,
        or_false] at hf
      rcases hf with h | h | h | h | h | h | h <;> subst h <;> rfl
    have hw : wrapInt (f NewTestResults) = f NewTestResults := by
      rw [h0]; rfl
    have hsum := mergeInto_counter fadd f hf rs NewTestResults hw
    rw [h0, zero_add] at hsum
    exact ⟨hsum, fun hr => by rw [hsum, wrapInt_of_inIntRange _ hr]⟩
  · rw [mergeInto_testCases]
    simp [NewTestResults, Slice.toList]

/-- Witness for C5: two reports with totals 3 and 4 and one test case each. -/
theorem merge_sums_counters_and_concatenates_witness :
    (mergeInto (fun a _ => a) NewTestResults
        [resultsOf 3 1 0 0 0 0 0 (some [caseNamed "a".toList]),
         resultsOf 4 0 2 0 0 0 0 (some [caseNamed "b".toList])]).1.Total = 7
      ∧ (mergeInto (fun a _ => a) NewTestResults
        [resultsOf 3 1 0 0 0 0 0 (some [caseNamed "a".toList]),
         resultsOf 4 0 2 0 0 0 0 (some [caseNamed "b".toList])]).1.TestCases.toList
          = [caseNamed "a".toList, caseNamed "b".toList] := by
  have h := merge_sums_counters_and_concatenates (fun a _ => a)
    [resultsOf 3 1 0 0 0 0 0 (some [caseNamed "a".toList]),
     resultsOf 4 0 2 0 0 0 0 (some [caseNamed "b".toList])]
  refine ⟨?_, ?_⟩
  · exact (h.1 TestResults.Total (by simp [counterFields])).2 (by decide)
  · rw [h.2.1]; rfl

/-! ## `TestSuite.InternalTestCases` -/

mutual
theorem internalTestCases_eq_all (s : TestSuite) (h : s.noNonNilMixed = true) :
    s.InternalTestCases.toList = s.allTestCases := by
  match s, h with
  | .mk _ _ _ _ _ _ _ _ _ _ suites (some cs), h =>
    simp only [TestSuite.noNonNilMixed, Option.isNone_some, Bool.false_or, Bool.and_eq_true,
      List.isEmpty_iff] at h
    obtain ⟨hs, _⟩ := h
    subst hs
    simp [TestSuite.InternalTestCases, TestSuite.allTestCases, allTestCases.ofSuites,
      Slice.toList]
  | .mk _ _ _ _ _ _ _ _ _ _ suites none, h =>
    simp only [TestSuite.noNonNilMixed, Bool.and_eq_true] at h
    have := range_eq_all suites none h.2
    simpa [TestSuite.InternalTestCases, TestSuite.allTestCases, Slice.toList] using this
theorem range_eq_all (suites : List TestSuite) (acc : Slice TestCase)
    (h : noNonNilMixed.ofSuites suites = true) :
    (InternalTestCases.range suites acc).toList = acc.toList ++ allTestCases.ofSuites suites := by
  match suites, h with
  | [], _ => simp [InternalTestCases.range, allTestCases.ofSuites]
  | s :: rest, h =>
    simp only [noNonNilMixed.ofSuites, Bool.and_eq_true] at h
    have h1 := internalTestCases_eq_all s h.1
    have h2 := range_eq_all rest (goAppend acc s.InternalTestCases.toList) h.2
    simp only [InternalTestCases.range, allTestCases.ofSuites]
    rw [h2, goAppend_toList, h1, List.append_assoc]
end

/-- C10 (refuted as stated): a suite whose `TestCases` slice is empty but not
nil has no direct test cases, yet `InternalTestCases` returns that empty slice
and none of the test cases of its nested suite. -/
theorem internalTestCases_empty_slice_counterexample :
    (suiteOf [suiteOf [] (some [caseNamed "t".toList])] (some [])).noMixed = true
      ∧ (suiteOf [suiteOf [] (some [caseNamed "t".toList])] (some [])).InternalTestCases.toList
          = []
      ∧ (suiteOf [suiteOf [] (some [caseNamed "t".toList])] (some [])).allTestCases
          = [caseNamed "t".toList] := by
  decide

/-- C10 (amended): for every finite test-suite tree in which no suite has both
a non-nil `TestCases` slice and nested suites, `InternalTestCases` returns every
test case of the tree exactly once, in document order; and for every suite
whose `TestCases` slice is not nil, whatever its nested suites hold, it returns
exactly that slice and none of the test cases of its nested suites. -/
theorem internalTestCases_returns_all_in_order (s : TestSuite) :
    (s.noNonNilMixed = true → s.InternalTestCases.toList = s.allTestCases)
      ∧ (∀ cs, s.TestCases = some cs → s.InternalTestCases = some cs) := by
  refine ⟨internalTestCases_eq_all s, ?_⟩
  intro cs hcs
  cases s with
  | mk _ _ _ _ _ _ _ _ _ _ suites cases =>
    simp only [TestSuite.TestCases] at hcs
    subst hcs
    simp [TestSuite.InternalTestCases]

/-- Witness for C10 (amended).  First a root with two nested suites, the first
holding two test cases in a further nested suite, the second holding one: all
three are returned in document order.  Then a suite with the direct test case
`a` and a nested suite holding `b`: exactly `a` is returned, although the tree
holds `a` and `b`. -/
theorem internalTestCases_returns_all_in_order_witness :
    (suiteOf [suiteOf [suiteOf [] (some [caseNamed "a".toList, caseNamed "b".toList])] none,
              suiteOf [] (some [caseNamed "c".toList])] none).InternalTestCases.toList
        = [caseNamed "a".toList, caseNamed "b".toList, caseNamed "c".toList]
      ∧ (suiteOf [suiteOf [] (some [caseNamed "b".toList])]
          (some [caseNamed "a".toList])).InternalTestCases = some [caseNamed "a".toList]
      ∧ (suiteOf [suiteOf [] (some [caseNamed "b".toList])]
          (some [caseNamed "a".toList])).allTestCases
        = [caseNamed "a".toList, caseNamed "b".toList] := by
  refine ⟨?_, ?_, by decide⟩
  · have h := (internalTestCases_returns_all_in_order
      (suiteOf [suiteOf [suiteOf [] (some [caseNamed "a".toList, caseNamed "b".toList])] none,
                suiteOf [] (some [caseNamed "c".toList])] none)).1 (by decide)
    rw [h]
    decide
  · exact (internalTestCases_returns_all_in_order
      (suiteOf [suiteOf [] (some [caseNamed "b".toList])] (some [caseNamed "a".toList]))).2
      [caseNamed "a".toList] rfl

end Nunit

namespace Filepath

/-! ## `path/filepath` -/

theorem splitLoop_of_no_sep (sep : Char) (s cur : Bytes) (h : sep ∉ s) :
    splitLoop sep s cur = [cur ++ s] := by
  induction s generalizing cur with
  | nil => simp [splitLoop]
  | cons c rest ih =>
    simp only [List.mem_cons, not_or] at h
    unfold splitLoop
    rw [if_neg (Ne.symm h.1), ih _ h.2]
    simp

theorem splitLoop_append_sep (sep : Char) (a b cur : Bytes) :
    splitLoop sep (a ++ sep :: b) cur = splitLoop sep a cur ++ splitLoop sep b [] := by
  induction a generalizing cur with
  | nil => simp [splitLoop]
  | cons c rest ih =>
    by_cases h : c = sep
    · simp [splitLoop, h, ih]
    · simp [splitLoop, h, ih]

theorem intercalate_snoc (sep : Bytes) (st : List Bytes) (n : Bytes) (h : st ≠ []) :
    sep.intercalate (st ++ [n]) = sep.intercalate st ++ sep ++ n := by
  induction st with
  | nil => exact absurd rfl h
  | cons x xs ih =>
    cases xs with
    | nil => simp [List.intercalate]
    | cons y ys =>
      have := ih (by simp)
      simp only [List.intercalate, List.cons_append, List.intersperse_cons_cons,
        List.flatten_cons] at this ⊢
      rw [this]
      simp [List.append_assoc]

theorem validName_iff (n : Bytes) :
    Server.validName n = true ↔ n ≠ [] ∧ n ≠ ['.'] ∧ n ≠ ['.', '.'] ∧ '/' ∉ n := by
  simp [Server.validName, List.isEmpty_iff, and_assoc]

theorem cleanStep_valid (rooted : Bool) (out : List Bytes) (n : Bytes)
    (h : Server.validName n = true) : cleanStep rooted out n = out ++ [n] := by
  obtain ⟨h1, h2, h3, _⟩ := (validName_iff n).1 h
  simp [cleanStep, h1, h2, h3]

theorem cleanElems_snoc (rooted : Bool) (p n : Bytes) (h : Server.validName n = true) :
    cleanElems rooted (p ++ '/' :: n) = cleanElems rooted p ++ [n] := by
  obtain ⟨_, _, _, h4⟩ := (validName_iff n).1 h
  simp only [cleanElems, stringsSplit]
  rw [splitLoop_append_sep, splitLoop_of_no_sep '/' n [] h4, List.foldl_append]
  simp [cleanStep_valid _ _ _ h]

/-- What `Clean` keeps: elements that are non-empty, not `.`, and free of
separators. -/
theorem cleanStep_elems (rooted : Bool) (out : List Bytes) (elem : Bytes)
    (hout : ∀ e ∈ out, e ≠ [] ∧ e ≠ ['.'] ∧ '/' ∉ e) (helem : '/' ∉ elem) :
    ∀ e ∈ cleanStep rooted out elem, e ≠ [] ∧ e ≠ ['.'] ∧ '/' ∉ e := by
  unfold cleanStep
  split
  · exact hout
  · next h1 =>
    simp only [not_or] at h1
    have hnew : ∀ e ∈ out ++ [elem], e ≠ [] ∧ e ≠ ['.'] ∧ '/' ∉ e := by
      intro e he
      rcases List.mem_append.1 he with h | h
      · exact hout e h
      · simp only [List.mem_singleton] at h
        subst h
        exact ⟨h1.1, h1.2, helem⟩
    split
    · split
      · split
        · exact hnew
        · intro e he
          exact hout e (List.mem_of_mem_dropLast he)
      · split
        · exact hout
        · exact hnew
    · exact hnew

theorem foldl_cleanStep_elems (rooted : Bool) (segs : List Bytes) (out : List Bytes)
    (hout : ∀ e ∈ out, e ≠ [] ∧ e ≠ ['.'] ∧ '/' ∉ e) (hsegs : ∀ x ∈ segs, '/' ∉ x) :
    ∀ e ∈ segs.foldl (cleanStep rooted) out, e ≠ [] ∧ e ≠ ['.'] ∧ '/' ∉ e := by
  induction segs generalizing out with
  | nil => simpa using hout
  | cons x xs ih =>
    simp only [List.foldl_cons]
    apply ih
    · exact cleanStep_elems rooted out x hout (hsegs x (by simp))
    · intro y hy
      exact hsegs y (by simp [hy])

theorem cleanElems_elems (rooted : Bool) (p : Bytes) :
    ∀ e ∈ cleanElems rooted p, e ≠ [] ∧ e ≠ ['.'] ∧ '/' ∉ e := by
  unfold cleanElems stringsSplit
  exact foldl_cleanStep_elems rooted _ [] (by simp) (splitLoop_no_sep '/' p [] (by simp))

theorem intercalate_ne_nil (st : List Bytes) (hst : st ≠ []) (h : ∀ e ∈ st, e ≠ []) :
    ['/'].intercalate st ≠ [] := by
  cases st with
  | nil => exact absurd rfl hst
  | cons x xs =>
    have hx := h x (by simp)
    cases xs with
    | nil => simpa [List.intercalate] using hx
    | cons y ys => simp [List.intercalate, hx]

theorem intercalate_ne_dot (st : List Bytes) (h : ∀ e ∈ st, e ≠ [] ∧ e ≠ ['.']) :
    ['/'].intercalate st ≠ ['.'] := by
  cases st with
  | nil => simp [List.intercalate]
  | cons x xs =>
    have hx := h x (by simp)
    cases xs with
    | nil => simpa [List.intercalate] using hx.2
    | cons y ys =>
      simp only [List.intercalate, List.intersperse_cons_cons, List.flatten_cons]
      intro hcon
      have hlen := congrArg List.length hcon
      have : 0 < x.length := List.length_pos.2 hx.1
      simp at hlen
      omega

/-- Appending a file name to a cleaned path and cleaning again: below `/` the
name follows the root, below `.` the name stands alone, below any other path
it follows a separator. -/
theorem clean_snoc (p n : Bytes) (hp : Clean p = p) (hn : Server.validName n = true) :
    Clean (p ++ '/' :: n)
      = if p = ['/'] then '/' :: n else if p = ['.'] then n else p ++ '/' :: n := by
  cases p with
  | nil => simp [Clean] at hp
  | cons c t =>
    by_cases hc : c = '/'
    · subst hc
      have helems := cleanElems_elems true ('/' :: t)
      simp only [Clean, if_true] at hp
      simp only [List.cons_append, Clean, if_true]
      have hsn := cleanElems_snoc true ('/' :: t) n hn
      simp only [List.cons_append] at hsn
      rw [hsn]
      by_cases hst : cleanElems true ('/' :: t) = []
      · rw [hst] at hp ⊢
        simp only [List.intercalate, List.intersperse_nil, List.flatten_nil, List.cons.injEq,
          true_and] at hp
        subst hp
        simp [List.intercalate]
      · have hne := intercalate_ne_nil _ hst (fun e he => (helems e he).1)
        have ht : t ≠ [] := by
          intro h0
          rw [h0] at hp
          simp only [List.cons.injEq, true_and] at hp
          rw [h0] at hne
          exact hne hp
        rw [intercalate_snoc _ _ _ hst]
        have hp' : ['/'].intercalate (cleanElems true ('/' :: t)) = t := by
          simpa using hp
        rw [hp']
        simp [ht]
    · have helems := cleanElems_elems false (c :: t)
      simp only [Clean, if_neg hc] at hp
      simp only [List.cons_append, Clean, if_neg hc]
      have hsn := cleanElems_snoc false (c :: t) n hn
      simp only [List.cons_append] at hsn
      rw [hsn]
      by_cases hst : cleanElems false (c :: t) = []
      · rw [hst] at hp ⊢
        simp only [if_true] at hp
        rw [← hp]
        simp [List.intercalate]
      · simp only [if_neg hst] at hp
        have hdot := intercalate_ne_dot _ (fun e he => ⟨(helems e he).1, (helems e he).2.1⟩)
        rw [hp] at hdot
        rw [intercalate_snoc _ _ _ hst, hp]
        have h1 : c :: t ≠ ['/'] := by
          intro h; injection h with h _; exact hc h
        simp [h1, hdot]

theorem join_pair (p n : Bytes) (hp : p ≠ []) : Join [p, n] = Clean (p ++ '/' :: n) := by
  simp [Join, hp, List.intercalate]

theorem reverse_head_of_append (q e : Bytes) (he : e ≠ []) (hs : '/' ∉ e) :
    ∃ ch rest, (q ++ e).reverse = ch :: rest ∧ ch ≠ '/' := by
  have hrev : e.reverse ≠ [] := by simpa using he
  obtain ⟨ch, r, hr⟩ := List.exists_cons_of_ne_nil hrev
  refine ⟨ch, r ++ q.reverse, by simp [hr], ?_⟩
  intro hch
  have : ch ∈ e.reverse := by rw [hr]; simp
  rw [List.mem_reverse] at this
  rw [hch] at this
  exact hs this

theorem intercalate_last (st : List Bytes) (hst : st ≠ []) :
    ∃ pre e, ['/'].intercalate st = pre ++ e ∧ e ∈ st := by
  rcases List.eq_nil_or_concat st with h | ⟨init, e, h⟩
  · exact absurd h hst
  · rw [List.concat_eq_append] at h
    subst h
    by_cases hinit : init = []
    · subst hinit
      exact ⟨[], e, by simp [List.intercalate], by simp⟩
    · refine ⟨['/'].intercalate init ++ ['/'], e, ?_, by simp⟩
      rw [intercalate_snoc _ _ _ hinit]

theorem clean_last_not_sep (p : Bytes) (hp : Clean p = p) (h : p ≠ ['/']) :
    ∃ ch rest, p.reverse = ch :: rest ∧ ch ≠ '/' := by
  cases p with
  | nil => simp [Clean] at hp
  | cons c t =>
    by_cases hc : c = '/'
    · subst hc
      have helems := cleanElems_elems true ('/' :: t)
      simp only [Clean, if_true] at hp
      have hst : cleanElems true ('/' :: t) ≠ [] := by
        intro h0
        rw [h0] at hp
        exact h (by simpa [List.intercalate] using hp.symm)
      obtain ⟨pre, e, hpe, he⟩ := intercalate_last _ hst
      rw [hpe] at hp
      rw [← hp]
      have := reverse_head_of_append ('/' :: pre) e (helems e he).1 (helems e he).2.2
      simpa using this
    · have helems := cleanElems_elems false (c :: t)
      simp only [Clean, if_neg hc] at hp
      by_cases hst : cleanElems false (c :: t) = []
      · rw [if_pos hst] at hp
        rw [← hp]
        exact ⟨'.', [], rfl, by decide⟩
      · rw [if_neg hst] at hp
        obtain ⟨pre, e, hpe, he⟩ := intercalate_last _ hst
        rw [hpe] at hp
        rw [← hp]
        exact reverse_head_of_append pre e (helems e he).1 (helems e he).2.2

/-- For a cleaned path other than the root, the second component of `Split` is
the last path element, `Base`, and is not empty. -/
theorem base_eq_split (p : Bytes) (hp : Clean p = p) (h : p ≠ ['/']) :
    Base p = (Split p).2 ∧ (Split p).2 ≠ [] := by
  obtain ⟨ch, rest, hrev, hch⟩ := clean_last_not_sep p hp h
  have hne : p ≠ [] := by
    intro h0; rw [h0] at hrev; simp at hrev
  have hstrip : (p.reverse.dropWhile (fun c => c == '/')).reverse = p := by
    rw [hrev, List.dropWhile_cons_of_neg (by simpa using hch), ← hrev, List.reverse_reverse]
  have hfile : (Split p).2 ≠ [] := by
    simp only [Split, hrev]
    rw [List.takeWhile_cons_of_pos (by simpa using hch)]
    simp
  refine ⟨?_, hfile⟩
  simp only [Base, if_neg hne, hstrip, if_neg hfile]

end Filepath

namespace Server
open Filepath

/-! ## `zipDirecotry` -/

theorem join_below (p n : Bytes) (hp : Clean p = p) (h1 : p ≠ ['/']) (h2 : p ≠ ['.'])
    (hn : validName n = true) :
    Join [p, n] = p ++ '/' :: n ∧ Clean (p ++ '/' :: n) = p ++ '/' :: n
      ∧ p ++ '/' :: n ≠ ['/'] ∧ p ++ '/' :: n ≠ ['.'] := by
  have hne : p ≠ [] := by
    intro h0; rw [h0] at hp; simp [Clean] at hp
  have hc := clean_snoc p n hp hn
  rw [if_neg h1, if_neg h2] at hc
  have hlen : 2 ≤ (p ++ '/' :: n).length := by
    have : 0 < p.length := List.length_pos.2 hne
    simp; omega
  refine ⟨by rw [join_pair p n hne, hc], hc, ?_, ?_⟩ <;>
  · intro h
    rw [h] at hlen
    simp at hlen

mutual
theorem walk_files (source dirName : Bytes) (node : Node) (rel : Bytes) (w : List ZipEntry)
    (hclean : Clean (source ++ rel) = source ++ rel) (h1 : source ++ rel ≠ ['/'])
    (h2 : source ++ rel ≠ ['.']) (hv : node.valid = true) (hr : node.readable = true) :
    walk source dirName (source ++ rel) node w
      = .ok (w ++ node.files.map (fun f => ⟨dirName ++ rel ++ f.1, f.2⟩), none) := by
  match node, hv, hr with
  | .file data, _, _ =>
    simp [walk, Node.files]
  | .locked, _, hr => simp [Node.readable] at hr
  | .dir es, hv, hr =>
    simp only [Node.valid] at hv
    simp only [Node.readable] at hr
    simp only [walk, Node.files]
    exact walkNames_files source dirName es rel w hclean h1 h2 hv hr
theorem walkNames_files (source dirName : Bytes) (es : List (Bytes × Node)) (rel : Bytes)
    (w : List ZipEntry)
    (hclean : Clean (source ++ rel) = source ++ rel) (h1 : source ++ rel ≠ ['/'])
    (h2 : source ++ rel ≠ ['.']) (hv : Node.validIn es = true)
    (hr : Node.readableIn es = true) :
    walkNames source dirName (source ++ rel) es w
      = .ok (w ++ (Node.filesIn es).map (fun f => ⟨dirName ++ rel ++ f.1, f.2⟩), none) := by
  match es, hv, hr with
  | [], _, _ => simp [walkNames, Node.filesIn]
  | (name, child) :: rest, hv, hr =>
    simp only [Node.validIn, Bool.and_eq_true] at hv
    simp only [Node.readableIn, Bool.and_eq_true] at hr
    obtain ⟨hj, hc, hn1, hn2⟩ := join_below (source ++ rel) name hclean h1 h2 hv.1.1
    rw [List.append_assoc] at hj hc hn1 hn2
    have ih1 := walk_files source dirName child (rel ++ '/' :: name) w hc hn1 hn2 hv.1.2 hr.1
    have ih2 := walkNames_files source dirName rest rel
      (w ++ child.files.map (fun f => ⟨dirName ++ (rel ++ '/' :: name) ++ f.1, f.2⟩))
      hclean h1 h2 hv.2 hr.2
    simp only [walkNames, hj, ih1, ih2, Node.filesIn]
    simp [List.map_append, List.append_assoc, Function.comp_def]
end

/-- C4 (refuted as stated): the directory `out` holding one file `a.txt`,
zipped under the source path `out/`.  The entry is named `a.txt`, not
`out/a.txt`: `filepath.Split` finds nothing after the final separator. -/
theorem zipDirecotry_trailing_separator_counterexample :
    osStat (.dir [("out".toList, .dir [("a.txt".toList, .file "x".toList)])]) "out/".toList
        = some (.dir [("a.txt".toList, .file "x".toList)])
      ∧ zipDirecotry (.ok "tmp.zip1".toList)
          (.dir [("out".toList, .dir [("a.txt".toList, .file "x".toList)])]) "out/".toList
        = .ok { name := "tmp.zip1".toList, err := none,
                archive := [{ Name := "a.txt".toList, Data := "x".toList }] }
      ∧ Base "out/".toList ++ "/a.txt".toList = "out/a.txt".toList
      ∧ "a.txt".toList ≠ Base "out/".toList ++ "/a.txt".toList := by
  refine ⟨rfl, ?_, ?_, ?_⟩ <;> decide

/-- C4 (amended): for a source directory given by a cleaned path (as
`filepath.Join` returns it) other than `/` and `.`, whose entries can all be
opened, `zipDirecotry` returns the temporary file without error, and the zip
holds exactly one entry for each regular file under the source, in walk order,
and none for a directory; the file at `source/<rel>` is named
`basename(source)/<rel>` and the entry holds its content. -/
theorem zipDirecotry_entries_named_by_basename (zipfile : Bytes) (fs : Node) (source : Bytes)
    (es : List (Bytes × Node))
    (hclean : Clean source = source) (hroot : source ≠ ['/']) (hdot : source ≠ ['.'])
    (hdir : osStat fs source = some (.dir es))
    (hvalid : Node.validIn es = true) (hread : Node.readableIn es = true) :
    zipDirecotry (.ok zipfile) fs source
      = .ok { name := zipfile, err := none,
              archive := (Node.filesIn es).map
                (fun f => { Name := Base source ++ f.1, Data := f.2 }) } := by
  have hbase := (base_eq_split source hclean hroot).1
  have hw := walkNames_files source (Split source).2 es [] []
    (by simpa using hclean) (by simpa using hroot) (by simpa using hdot) hvalid hread
  simp only [List.append_nil, List.nil_append] at hw
  simp only [zipDirecotry, hdir, walk, hw, hbase]

/-- Witness for C4 (amended): `/srv/out` with a file and a nested directory. -/
theorem zipDirecotry_entries_named_by_basename_witness :
    zipDirecotry (.ok "tmp.zip1".toList)
        (.dir [("srv".toList, .dir [("out".toList,
          .dir [("a.txt".toList, .file "x".toList),
                ("d".toList, .dir [("b".toList, .file "y".toList)]),
                ("e".toList, .dir [])])])])
        "/srv/out".toList
      = .ok { name := "tmp.zip1".toList, err := none,
              archive := [{ Name := "out/a.txt".toList, Data := "x".toList },
                          { Name := "out/d/b".toList, Data := "y".toList }] } := by
  have h := zipDirecotry_entries_named_by_basename "tmp.zip1".toList
    (.dir [("srv".toList, .dir [("out".toList,
          .dir [("a.txt".toList, .file "x".toList),
                ("d".toList, .dir [("b".toList, .file "y".toList)]),
                ("e".toList, .dir [])])])])
    "/srv/out".toList
    [("a.txt".toList, .file "x".toList),
     ("d".toList, .dir [("b".toList, .file "y".toList)]),
     ("e".toList, .dir [])]
    (by decide) (by decide) (by decide) rfl (by decide) (by decide)
  rw [h]
  decide

end Server

namespace Filepath

/-! ## `Clean` returns a normal form -/

theorem cleanStep_dots (rooted : Bool) (out : List Bytes) (elem : Bytes)
    (hmem : ∀ e ∈ out, e = ['.', '.'] → rooted = false)
    (hchain : List.Chain' (fun a b : Bytes => b = ['.', '.'] → a = ['.', '.']) out) :
    (∀ e ∈ cleanStep rooted out elem, e = ['.', '.'] → rooted = false)
      ∧ List.Chain' (fun a b : Bytes => b = ['.', '.'] → a = ['.', '.'])
          (cleanStep rooted out elem) := by
  unfold cleanStep
  split
  · exact ⟨hmem, hchain⟩
  · split
    · next hdd =>
      subst hdd
      cases hlast : out.getLast? with
      | none =>
        have hnil : out = [] := List.getLast?_eq_none_iff.1 hlast
        subst hnil
        cases rooted with
        | true => simp
        | false => simp
      | some top =>
        have htop : top ∈ out := List.mem_of_getLast?_eq_some hlast
        simp only
        split
        · next ht =>
          subst ht
          refine ⟨?_, ?_⟩
          · intro e he _
            exact hmem _ htop rfl
          · rw [List.chain'_append]
            refine ⟨hchain, List.chain'_singleton _, ?_⟩
            intro x hx y hy _
            rw [hlast] at hx
            simp only [Option.mem_def, Option.some.injEq] at hx
            exact hx.symm
        · exact ⟨fun e he => hmem e (List.mem_of_mem_dropLast he),
            hchain.prefix (List.dropLast_prefix out)⟩
    · next hdd =>
      refine ⟨?_, ?_⟩
      · intro e he hedd
        rcases List.mem_append.1 he with h | h
        · exact hmem e h hedd
        · simp only [List.mem_singleton] at h
          exact absurd (h ▸ hedd) hdd
      · rw [List.chain'_append]
        refine ⟨hchain, List.chain'_singleton _, ?_⟩
        intro x _ y hy hy2
        simp only [List.head?_cons, Option.mem_def, Option.some.injEq] at hy
        exact absurd (hy ▸ hy2) hdd

theorem foldl_cleanStep_dots (rooted : Bool) (segs : List Bytes) (out : List Bytes)
    (hmem : ∀ e ∈ out, e = ['.', '.'] → rooted = false)
    (hchain : List.Chain' (fun a b : Bytes => b = ['.', '.'] → a = ['.', '.']) out) :
    (∀ e ∈ segs.foldl (cleanStep rooted) out, e = ['.', '.'] → rooted = false)
      ∧ List.Chain' (fun a b : Bytes => b = ['.', '.'] → a = ['.', '.'])
          (segs.foldl (cleanStep rooted) out) := by
  induction segs generalizing out with
  | nil => exact ⟨hmem, hchain⟩
  | cons x xs ih =>
    obtain ⟨h1, h2⟩ := cleanStep_dots rooted out x hmem hchain
    exact ih _ h1 h2

/-- Reading a normal form element by element gives it back. -/
theorem foldl_cleanStep_normal (rooted : Bool) (st out : List Bytes)
    (helems : ∀ e ∈ out ++ st, e ≠ [] ∧ e ≠ ['.'] ∧ '/' ∉ e)
    (hmem : ∀ e ∈ out ++ st, e = ['.', '.'] → rooted = false)
    (hchain : List.Chain' (fun a b : Bytes => b = ['.', '.'] → a = ['.', '.']) (out ++ st)) :
    st.foldl (cleanStep rooted) out = out ++ st := by
  induction st generalizing out with
  | nil => simp
  | cons e rest ih =>
    have hstep : cleanStep rooted out e = out ++ [e] := by
      have he := helems e (by simp)
      unfold cleanStep
      rw [if_neg (by simp [he.1, he.2.1])]
      split
      · next hdd =>
        have hr := hmem e (by simp) hdd
        cases hlast : out.getLast? with
        | none => simp [hr]
        | some top =>
          have := (List.chain'_append.1 hchain).2.2 top (by simp [hlast]) e (by simp) hdd
          simp [this]
      · rfl
    simp only [List.foldl_cons, hstep]
    rw [ih (out ++ [e]) (by simpa using helems) (by simpa using hmem) (by simpa using hchain)]
    simp

theorem split_intercalate (st : List Bytes) (hst : st ≠ []) (h : ∀ e ∈ st, '/' ∉ e) :
    stringsSplit (['/'].intercalate st) '/' = st := by
  induction st with
  | nil => exact absurd rfl hst
  | cons x xs ih =>
    cases xs with
    | nil =>
      simpa [List.intercalate, stringsSplit] using splitLoop_of_no_sep '/' x [] (h x (by simp))
    | cons y ys =>
      have ih' := ih (by simp) (fun e he => h e (by simp [he]))
      have hform : ['/'].intercalate (x :: y :: ys) = x ++ '/' :: ['/'].intercalate (y :: ys) := by
        simp [List.intercalate]
      rw [hform]
      simp only [stringsSplit] at ih' ⊢
      rw [splitLoop_append_sep, ih', splitLoop_of_no_sep '/' x [] (h x (by simp))]
      simp

theorem cleanElems_normal (rooted : Bool) (p : Bytes) :
    (∀ e ∈ cleanElems rooted p, e ≠ [] ∧ e ≠ ['.'] ∧ '/' ∉ e)
      ∧ (∀ e ∈ cleanElems rooted p, e = ['.', '.'] → rooted = false)
      ∧ List.Chain' (fun a b : Bytes => b = ['.', '.'] → a = ['.', '.']) (cleanElems rooted p) := by
  refine ⟨cleanElems_elems rooted p, ?_⟩
  unfold cleanElems
  exact foldl_cleanStep_dots rooted _ [] (by simp) (by simp)

/-- The elements of a path rendered from a normal form are that normal form. -/
theorem cleanElems_intercalate (rooted : Bool) (st : List Bytes) (hst : st ≠ [])
    (helems : ∀ e ∈ st, e ≠ [] ∧ e ≠ ['.'] ∧ '/' ∉ e)
    (hmem : ∀ e ∈ st, e = ['.', '.'] → rooted = false)
    (hchain : List.Chain' (fun a b : Bytes => b = ['.', '.'] → a = ['.', '.']) st) :
    cleanElems rooted (['/'].intercalate st) = st
      ∧ cleanElems rooted ('/' :: ['/'].intercalate st) = st := by
  have hsplit := split_intercalate st hst (fun e he => (helems e he).2.2)
  have hfold := foldl_cleanStep_normal rooted st [] (by simpa using helems) (by simpa using hmem)
    (by simpa using hchain)
  refine ⟨?_, ?_⟩
  · simp only [cleanElems, hsplit]
    simpa using hfold
  · simp only [cleanElems, stringsSplit] at hsplit ⊢
    simp only [splitLoop, if_true, hsplit, List.foldl_cons]
    simpa [cleanStep] using hfold

theorem intercalate_head_not_sep (st : List Bytes) (hst : st ≠ [])
    (helems : ∀ e ∈ st, e ≠ [] ∧ e ≠ ['.'] ∧ '/' ∉ e) :
    ∃ c t, ['/'].intercalate st = c :: t ∧ c ≠ '/' := by
  cases st with
  | nil => exact absurd rfl hst
  | cons x xs =>
    obtain ⟨hx1, _, hx3⟩ := helems x (by simp)
    obtain ⟨c, t, hct⟩ := List.exists_cons_of_ne_nil hx1
    subst hct
    have hc : c ≠ '/' := by
      intro h; subst h; exact hx3 (by simp)
    cases xs with
    | nil => exact ⟨c, t, by simp [List.intercalate], hc⟩
    | cons y ys =>
      exact ⟨c, t ++ '/' :: ['/'].intercalate (y :: ys), by simp [List.intercalate], hc⟩

/-- `Clean` is idempotent. -/
theorem clean_clean (p : Bytes) : Clean (Clean p) = Clean p := by
  cases p with
  | nil => decide
  | cons c t =>
    by_cases hc : c = '/'
    · subst hc
      obtain ⟨h1, h2, h3⟩ := cleanElems_normal true ('/' :: t)
      simp only [Clean, if_true]
      by_cases hst : cleanElems true ('/' :: t) = []
      · rw [hst]; decide
      · rw [(cleanElems_intercalate true _ hst h1 h2 h3).2]
    · obtain ⟨h1, h2, h3⟩ := cleanElems_normal false (c :: t)
      simp only [Clean, if_neg hc]
      by_cases hst : cleanElems false (c :: t) = []
      · rw [if_pos hst]; decide
      · rw [if_neg hst]
        obtain ⟨c2, t2, hct, hc2⟩ := intercalate_head_not_sep _ hst h1
        have hfix := (cleanElems_intercalate false _ hst h1 h2 h3).1
        rw [hct] at hfix ⊢
        simp only [Clean, if_neg hc2, hfix, if_neg hst]
        exact hct

theorem clean_join (elems : List Bytes) (h : Join elems ≠ []) :
    Clean (Join elems) = Join elems := by
  induction elems with
  | nil => simp [Join] at h
  | cons e rest ih =>
    simp only [Join] at h ⊢
    split
    · next he => rw [if_pos he] at h; exact ih h
    · exact clean_clean _

end Filepath

namespace Server
open Filepath

/-! ## `handleArtifactDownload` -/

theorem clean_ne_nil (p : Bytes) : Clean p ≠ [] := by
  cases p with
  | nil => simp [Clean]
  | cons c t =>
    simp only [Clean]
    split
    · simp
    · split
      · simp
      · next _ hst =>
        exact intercalate_ne_nil _ hst (fun e he => (cleanElems_elems false (c :: t) e he).1)

theorem join_ne_nil_of_mem (elems : List Bytes) (h : ∃ e ∈ elems, e ≠ []) : Join elems ≠ [] := by
  induction elems with
  | nil => simp at h
  | cons e rest ih =>
    simp only [Join]
    split
    · next he =>
      apply ih
      obtain ⟨x, hx, hne⟩ := h
      rcases List.mem_cons.1 hx with h1 | h1
      · exact absurd (h1 ▸ he) hne
      · exact ⟨x, h1, hne⟩
    · exact clean_ne_nil _

theorem fullPath_clean (s : Server) (buildId : Bytes) (file : List Bytes) :
    Clean (fullPath s buildId file) = fullPath s buildId file := by
  have h1 : ∀ f, Clean (s.ArtifactFile buildId f) = s.ArtifactFile buildId f := fun f =>
    clean_join _ (join_ne_nil_of_mem _ ⟨"artifacts".toList, by simp, by decide⟩)
  have h2 : Clean (s.ChecksumFile buildId) = s.ChecksumFile buildId :=
    clean_join _ (join_ne_nil_of_mem _ ⟨"artifacts".toList, by simp, by decide⟩)
  unfold fullPath
  split
  · exact h1 _
  · exact h2

theorem join_child (p n : Bytes) (hp : Clean p = p) (hn : validName n = true) :
    Clean (Join [p, n]) = Join [p, n] ∧ p.length ≤ (Join [p, n]).length := by
  have hne : p ≠ [] := by
    intro h0; rw [h0] at hp; simp [Clean] at hp
  have hnn : n ≠ [] := ((validName_iff n).1 hn).1
  have hnlen : 0 < n.length := List.length_pos.2 hnn
  rw [join_pair p n hne]
  refine ⟨clean_clean _, ?_⟩
  rw [clean_snoc p n hp hn]
  split
  · next h => rw [h]; simp
  · split
    · next h => rw [h]; simpa using hnlen
    · simp

mutual
theorem walk_returns (source dirName : Bytes) (node : Node) (path : Bytes) (w : List ZipEntry)
    (hclean : Clean path = path) (hlen : source.length ≤ path.length)
    (hv : node.valid = true) :
    ∃ r, walk source dirName path node w = .ok r := by
  match node, hv with
  | .file data, _ =>
    simp only [walk, if_pos hlen]
    exact ⟨_, rfl⟩
  | .locked, _ =>
    simp only [walk]
    exact ⟨_, rfl⟩
  | .dir es, hv =>
    simp only [Node.valid] at hv
    simp only [walk]
    exact walkNames_returns source dirName es path w hclean hlen hv
theorem walkNames_returns (source dirName : Bytes) (es : List (Bytes × Node)) (path : Bytes)
    (w : List ZipEntry)
    (hclean : Clean path = path) (hlen : source.length ≤ path.length)
    (hv : Node.validIn es = true) :
    ∃ r, walkNames source dirName path es w = .ok r := by
  match es, hv with
  | [], _ =>
    simp only [walkNames]
    exact ⟨_, rfl⟩
  | (name, child) :: rest, hv =>
    simp only [Node.validIn, Bool.and_eq_true] at hv
    obtain ⟨hc, hl⟩ := join_child path name hclean hv.1.1
    obtain ⟨r, hr⟩ := walk_returns source dirName child (Join [path, name]) w hc
      (le_trans hlen hl) hv.1.2
    simp only [walkNames, hr]
    obtain ⟨w1, err⟩ := r
    cases err with
    | none => exact walkNames_returns source dirName rest path w1 hclean hlen hv.2
    | some e => exact ⟨_, rfl⟩
end

mutual
theorem lookup_valid (node : Node) (p : Elems) (found : Node) (hv : node.valid = true)
    (h : node.lookup p = some found) : found.valid = true := by
  match node, p, hv, h with
  | n, [], hv, h =>
    simp only [Node.lookup, Option.some.injEq] at h
    exact h ▸ hv
  | .dir es, c :: cs, hv, h =>
    simp only [Node.valid] at hv
    simp only [Node.lookup] at h
    exact lookupIn_valid es c cs found hv h
  | .file _, _ :: _, _, h => simp [Node.lookup] at h
  | .locked, _ :: _, _, h => simp [Node.lookup] at h
theorem lookupIn_valid (es : List (Bytes × Node)) (c : Bytes) (cs : Elems) (found : Node)
    (hv : Node.validIn es = true) (h : Node.lookupIn es c cs = some found) :
    found.valid = true := by
  match es, hv, h with
  | [], _, h => simp [Node.lookupIn] at h
  | (n, child) :: rest, hv, h =>
    simp only [Node.validIn, Bool.and_eq_true] at hv
    simp only [Node.lookupIn] at h
    split at h
    · exact lookup_valid child cs found hv.1.2 h
    · exact lookupIn_valid rest c cs found hv.2 h
end

theorem zipDirecotry_returns (tempFile : Except GoError Bytes) (fs : Node) (source : Bytes)
    (hclean : Clean source = source) (hv : fs.valid = true) :
    ∃ z, zipDirecotry tempFile fs source = .ok z := by
  unfold zipDirecotry
  cases tempFile with
  | error e => exact ⟨_, rfl⟩
  | ok zipfile =>
    simp only
    cases hst : osStat fs source with
    | none => exact ⟨_, rfl⟩
    | some node =>
      have hnv := lookup_valid fs _ node hv hst
      obtain ⟨r, hr⟩ := walk_returns source (Split source).2 node source [] hclean (le_refl _) hnv
      simp only [hr]
      exact ⟨_, rfl⟩

/-- C8 (refuted as stated): a query carrying the file parameter twice, with
the values `a.txt` and `b.txt`.  The path served is the checksum file, not
`ArtifactFile(buildId, "a.txt")`, and the response is the checksum file's
content. -/
theorem download_two_file_parameters_counterexample :
    queryValues [("file".toList, "a.txt".toList), ("file".toList, "b.txt".toList)] "file".toList
        = ["a.txt".toList, "b.txt".toList]
      ∧ fullPath ⟨"/srv".toList⟩ "7".toList
          (queryValues [("file".toList, "a.txt".toList), ("file".toList, "b.txt".toList)]
            "file".toList)
        = Server.ChecksumFile ⟨"/srv".toList⟩ "7".toList
      ∧ Server.ChecksumFile ⟨"/srv".toList⟩ "7".toList
        ≠ Server.ArtifactFile ⟨"/srv".toList⟩ "7".toList "a.txt".toList
      ∧ handleArtifactDownload (demoEnv []) ⟨"/srv".toList⟩ demoTree
          { Path := "/artifacts/7".toList,
            Query := [("file".toList, "a.txt".toList), ("file".toList, "b.txt".toList)] }
        = .ok { status := 200, body := "a.txt=1\n".toList } := by
  refine ⟨by decide, by decide, by decide, by decide⟩

/-- C8 (amended): the path served is `ArtifactFile(buildId, p)` when the query
carries exactly one file parameter, with value `p`, and `ChecksumFile(buildId)`
when it carries none or more than one.  On a file system whose entries have
valid names the handler always answers: a path that does not exist, or a file
that cannot be opened, with a bad-request response; a regular file with its
bytes; a directory with the archive `zipDirecotry` leaves, or with a
bad-request response when `zipDirecotry` returns an error; and a directory
whose files can all be opened with one entry `basename/<rel>` for every regular
file below it. -/
theorem handleArtifactDownload_serves (env : Env) (s : Server) (fs : Node)
    (req : DownloadRequest) (hvalid : fs.valid = true) :
    (∀ p, queryValues req.Query "file".toList = [p] →
        fullPath s (env.parseBuildId req.Path) (queryValues req.Query "file".toList)
          = s.ArtifactFile (env.parseBuildId req.Path) p)
      ∧ ((queryValues req.Query "file".toList).length ≠ 1 →
        fullPath s (env.parseBuildId req.Path) (queryValues req.Query "file".toList)
          = s.ChecksumFile (env.parseBuildId req.Path))
      ∧ (osStat fs (fullPath s (env.parseBuildId req.Path)
            (queryValues req.Query "file".toList)) = none →
          ∃ err, handleArtifactDownload env s fs req = .ok (s.responseBadRequest err))
      ∧ (osStat fs (fullPath s (env.parseBuildId req.Path)
            (queryValues req.Query "file".toList)) = some .locked →
          ∃ err, handleArtifactDownload env s fs req = .ok (s.responseBadRequest err))
      ∧ (∀ data, osStat fs (fullPath s (env.parseBuildId req.Path)
            (queryValues req.Query "file".toList)) = some (.file data) →
          handleArtifactDownload env s fs req = .ok { status := 200, body := data })
      ∧ (∀ es, osStat fs (fullPath s (env.parseBuildId req.Path)
            (queryValues req.Query "file".toList)) = some (.dir es) →
          ∃ z, zipDirecotry env.tempFile fs (fullPath s (env.parseBuildId req.Path)
                (queryValues req.Query "file".toList)) = .ok z
            ∧ (z.err = none →
                handleArtifactDownload env s fs req
                  = .ok { status := 200, body := env.zipBytes z.archive })
            ∧ (∀ err, z.err = some err →
                handleArtifactDownload env s fs req = .ok (s.responseBadRequest err)))
      ∧ (∀ es zipfile, osStat fs (fullPath s (env.parseBuildId req.Path)
            (queryValues req.Query "file".toList)) = some (.dir es) →
          Node.readableIn es = true → env.tempFile = .ok zipfile →
          fullPath s (env.parseBuildId req.Path) (queryValues req.Query "file".toList) ≠ ['/'] →
          fullPath s (env.parseBuildId req.Path) (queryValues req.Query "file".toList) ≠ ['.'] →
          handleArtifactDownload env s fs req
            = .ok { status := 200,
                    body := env.zipBytes ((Node.filesIn es).map (fun f =>
                      { Name := Base (fullPath s (env.parseBuildId req.Path)
                          (queryValues req.Query "file".toList)) ++ f.1,
                        Data := f.2 })) }) := by
  have hclean := fullPath_clean s (env.parseBuildId req.Path)
    (queryValues req.Query "file".toList)
  refine ⟨?_, ?_, ?_, ?_, ?_, ?_, ?_⟩
  · intro p hp
    rw [hp]; rfl
  · intro hlen
    unfold fullPath
    split
    · next f hf => rw [hf] at hlen; simp at hlen
    · rfl
  · intro h
    simp only [handleArtifactDownload, h]
    exact ⟨_, rfl⟩
  · intro h
    simp only [handleArtifactDownload, h]
    exact ⟨_, rfl⟩
  · intro data h
    simp only [handleArtifactDownload, h]
  · intro es h
    obtain ⟨z, hz⟩ := zipDirecotry_returns env.tempFile fs _ hclean hvalid
    refine ⟨z, hz, ?_, ?_⟩
    · intro herr
      simp only [handleArtifactDownload, h, hz, herr]
    · intro err herr
      simp only [handleArtifactDownload, h, hz, herr]
  · intro es zipfile h hread htmp hroot hdot
    have hv : Node.validIn es = true := by
      have := lookup_valid fs _ _ hvalid h
      simpa [Node.valid] using this
    have hbase := (base_eq_split _ hclean hroot).1
    have hw := walkNames_files (fullPath s (env.parseBuildId req.Path)
      (queryValues req.Query "file".toList)) (Split (fullPath s (env.parseBuildId req.Path)
      (queryValues req.Query "file".toList))).2 es [] []
      (by simpa using hclean) (by simpa using hroot) (by simpa using hdot) hv hread
    simp only [List.append_nil, List.nil_append] at hw
    simp only [handleArtifactDownload, h, zipDirecotry, htmp, walk, hw, hbase]

/-- Witness for C8 (amended): `GET /artifacts/7?file=d` on the example tree is
answered with the zip of the directory `d`. -/
theorem handleArtifactDownload_serves_witness :
    handleArtifactDownload (demoEnv []) ⟨"/srv".toList⟩ demoTree
        { Path := "/artifacts/7".toList, Query := [("file".toList, "d".toList)] }
      = .ok { status := 200, body := "d/b.txt=B;".toList } := by
  have h := (handleArtifactDownload_serves (demoEnv []) ⟨"/srv".toList⟩ demoTree
    { Path := "/artifacts/7".toList, Query := [("file".toList, "d".toList)] }
    (by decide)).2.2.2.2.2.2 [("b.txt".toList, .file "B".toList)] "tmp.zip1".toList
    rfl (by decide) rfl (by decide) (by decide)
  rw [h]
  decide

end Server

namespace Filepath

/-! ## Resolving a cleaned path -/

theorem all_dots_of_last (l : List Bytes)
    (hchain : List.Chain' (fun a b : Bytes => b = ['.', '.'] → a = ['.', '.']) l)
    (hlast : l.getLast? = some ['.', '.']) : ∀ x ∈ l, x = ['.', '.'] := by
  induction l with
  | nil => simp
  | cons a rest ih =>
    cases rest with
    | nil =>
      simp only [List.getLast?_singleton, Option.some.injEq] at hlast
      simp [hlast]
    | cons b rest2 =>
      have hc := List.chain'_cons.1 hchain
      have hl : (b :: rest2).getLast? = some ['.', '.'] := by
        simpa [List.getLast?_cons_cons] using hlast
      have ih' := ih hc.2 hl
      intro x hx
      rcases List.mem_cons.1 hx with h | h
      · rw [h]; exact hc.1 (ih' b (by simp))
      · exact ih' x h

/-- Reading an element at the root, where `..` stays at the root, commutes with
forgetting the leading `..` elements of a path that is not rooted. -/
theorem cleanStep_filter (out : List Bytes) (elem : Bytes)
    (hchain : List.Chain' (fun a b : Bytes => b = ['.', '.'] → a = ['.', '.']) out) :
    cleanStep true (out.filter (fun e => decide (e ≠ ['.', '.']))) elem
      = (cleanStep false out elem).filter (fun e => decide (e ≠ ['.', '.'])) := by
  unfold cleanStep
  by_cases h1 : elem = [] ∨ elem = ['.']
  · simp only [if_pos h1]
  · simp only [if_neg h1]
    by_cases h2 : elem = ['.', '.']
    · simp only [if_pos h2]
      rcases List.eq_nil_or_concat out with h | ⟨init, top, h⟩
      · subst h
        subst h2
        simp
      · rw [List.concat_eq_append] at h
        subst h
        by_cases ht : top = ['.', '.']
        · have hall := all_dots_of_last _ hchain (by simp [ht])
          have hfil : (init ++ [top]).filter (fun e => decide (e ≠ ['.', '.'])) = [] := by
            rw [List.filter_eq_nil_iff]
            intro x hx
            simp [hall x hx]
          rw [hfil]
          subst h2
          simp only [ht, List.getLast?_nil, List.getLast?_append, List.getLast?_singleton,
            Option.or_some, if_true, List.filter_append, List.filter_cons, ne_eq,
            not_true_eq_false, decide_False, List.filter_nil, List.append_nil]
          rw [List.filter_append] at hfil
          have hinit := (List.append_eq_nil.1 hfil).1
          simp only [ne_eq] at hinit
          simp [hinit]
          intro a ha
          exact hall a (by simp [ha])
        · have hfil : (init ++ [top]).filter (fun e => decide (e ≠ ['.', '.']))
              = init.filter (fun e => decide (e ≠ ['.', '.'])) ++ [top] := by
            simp [List.filter_append, ht]
          rw [hfil]
          simp [ht]
    · simp only [if_neg h2]
      simp [List.filter_append, h2]

theorem foldl_cleanStep_filter (segs : List Bytes) (out : List Bytes)
    (hchain : List.Chain' (fun a b : Bytes => b = ['.', '.'] → a = ['.', '.']) out) :
    segs.foldl (cleanStep true) (out.filter (fun e => decide (e ≠ ['.', '.'])))
      = (segs.foldl (cleanStep false) out).filter (fun e => decide (e ≠ ['.', '.'])) := by
  induction segs generalizing out with
  | nil => rfl
  | cons x xs ih =>
    simp only [List.foldl_cons]
    rw [cleanStep_filter out x hchain]
    exact ih _ (cleanStep_dots false out x (by simp) hchain).2

/-- `Clean` does not change what a path resolves to. -/
theorem cleanElems_clean (p : Bytes) : cleanElems true (Clean p) = cleanElems true p := by
  cases p with
  | nil => decide
  | cons c t =>
    by_cases hc : c = '/'
    · subst hc
      obtain ⟨h1, h2, h3⟩ := cleanElems_normal true ('/' :: t)
      simp only [Clean, if_true]
      by_cases hst : cleanElems true ('/' :: t) = []
      · rw [hst]; decide
      · exact (cleanElems_intercalate true _ hst h1 h2 h3).2
    · obtain ⟨h1, h2, h3⟩ := cleanElems_normal false (c :: t)
      have hrel : cleanElems true (c :: t)
          = (cleanElems false (c :: t)).filter (fun e => decide (e ≠ ['.', '.'])) := by
        have := foldl_cleanStep_filter (stringsSplit (c :: t) '/') [] (by simp)
        simpa [cleanElems] using this
      simp only [Clean, if_neg hc]
      by_cases hst : cleanElems false (c :: t) = []
      · rw [if_pos hst, hrel, hst]; decide
      · rw [if_neg hst, hrel]
        have hsplit := split_intercalate _ hst (fun e he => (h1 e he).2.2)
        have hnorm := foldl_cleanStep_normal false (cleanElems false (c :: t)) []
          (by simpa using h1) (by simp) (by simpa using h3)
        have hfil := foldl_cleanStep_filter (cleanElems false (c :: t)) [] (by simp)
        simp only [List.filter_nil, List.nil_append] at hfil hnorm
        rw [hnorm] at hfil
        have hunf : cleanElems true (['/'].intercalate (cleanElems false (c :: t)))
            = (stringsSplit (['/'].intercalate (cleanElems false (c :: t))) '/').foldl
                (cleanStep true) [] := rfl
        rw [hunf, hsplit]
        exact hfil

theorem split_spec (path : Bytes) :
    (Split path).1 ++ (Split path).2 = path ∧ '/' ∉ (Split path).2
      ∧ ((Split path).1 = [] ∨ ∃ q, (Split path).1 = q ++ ['/']) := by
  have hsum := List.takeWhile_append_dropWhile (fun c => c != '/') path.reverse
  have hpath : path
      = (path.reverse.dropWhile (fun c => c != '/')).reverse
        ++ (path.reverse.takeWhile (fun c => c != '/')).reverse := by
    rw [← List.reverse_append, hsum, List.reverse_reverse]
  have hdir : (Split path).1 = (path.reverse.dropWhile (fun c => c != '/')).reverse := by
    simp only [Split]
    conv_lhs => rw [hpath]
    rw [List.take_append_eq_append_take]
    have hlen : path.length
        = (path.reverse.dropWhile (fun c => c != '/')).reverse.length
          + (path.reverse.takeWhile (fun c => c != '/')).reverse.length := by
      conv_lhs => rw [hpath]
      rw [List.length_append]
    rw [List.length_append] 
    simp only [List.length_reverse] at hlen ⊢
    simp
  refine ⟨?_, ?_, ?_⟩
  · rw [hdir]
    exact hpath.symm
  · simp only [Split, List.mem_reverse]
    intro hmem
    have := List.mem_takeWhile_imp hmem
    simp at this
  · rw [hdir]
    cases hd : path.reverse.dropWhile (fun c => c != '/') with
    | nil => left; rfl
    | cons x xs =>
      right
      have hx : ¬ ((fun c => c != '/') x = true) := by
        have := List.head_dropWhile_not (fun c => c != '/') path.reverse (by rw [hd]; simp)
        simpa [hd] using this
      have hx' : x = '/' := by simpa using hx
      exact ⟨xs.reverse, by simp [hx']⟩

/-- A path that ends in a file name resolves to what its directory part
resolves to, followed by that name; and the directory part resolves to what
`Dir` resolves to. -/
theorem resolve_split (path : Bytes) (h : Server.validName (Split path).2 = true) :
    Server.resolvePath path = Server.resolvePath (Dir path) ++ [(Split path).2] := by
  obtain ⟨hsum, hno, hdir⟩ := split_spec path
  have hD : Server.resolvePath (Dir path) = cleanElems true (Split path).1 := by
    simp only [Server.resolvePath, Dir]
    exact cleanElems_clean _
  rw [hD]
  simp only [Server.resolvePath]
  generalize hb : (Split path).2 = base at h hsum hno ⊢
  generalize hd : (Split path).1 = dir at hsum hdir ⊢
  subst hsum
  have hnil : cleanElems true [] = [] := by decide
  rcases hdir with h0 | ⟨q, hq⟩
  · subst h0
    rw [hnil]
    simp only [List.nil_append, cleanElems, stringsSplit]
    rw [splitLoop_of_no_sep '/' _ [] hno]
    simp only [List.nil_append, List.foldl_cons, List.foldl_nil]
    exact cleanStep_valid true [] base h
  · subst hq
    have h1 := cleanElems_snoc true q base h
    have h2 : cleanElems true (q ++ ['/']) = cleanElems true q := by
      simp only [cleanElems, stringsSplit]
      rw [splitLoop_append_sep, List.foldl_append]
      simp [splitLoop, cleanStep]
    rw [h2, ← h1]
    simp

end Filepath

namespace Server
open Filepath

/-! ## The disk -/

theorem set_same (d : Disk) (p : Elems) (o : Obj) : d.set p o p = some o := by
  simp [Disk.set]

theorem set_other (d : Disk) (p q : Elems) (o : Obj) (h : q ≠ p) : d.set p o q = d q := by
  simp [Disk.set, h]

/-- `MkdirAll` changes nothing except at the directories it is asked for. -/
theorem mkdirAllFrom_frame (d : Disk) (done : Elems) (cs : List Bytes) (q : Elems)
    (h : ¬ ∃ pre, pre <+: cs ∧ pre ≠ [] ∧ q = done ++ pre) :
    (mkdirAllFrom d done cs).1 q = d q := by
  induction cs generalizing d done with
  | nil => rfl
  | cons c rest ih =>
    have hrest : ¬ ∃ pre, pre <+: rest ∧ pre ≠ [] ∧ q = (done ++ [c]) ++ pre := by
      rintro ⟨pre, hpre, _, hq⟩
      exact h ⟨c :: pre, (List.prefix_cons_inj c).2 hpre, by simp, by simpa using hq⟩
    have hq : q ≠ done ++ [c] := by
      intro hq
      exact h ⟨[c], by simp [List.prefix_iff_eq_append], by simp, hq⟩
    unfold mkdirAllFrom
    cases hd : d (done ++ [c]) with
    | none =>
      simp only
      rw [ih _ _ hrest, set_other _ _ _ _ hq]
    | some o =>
      cases o with
      | file x => rfl
      | dir => exact ih _ _ hrest

/-- `MkdirAll` succeeds when no regular file is in the way, and then every
directory asked for exists. -/
theorem mkdirAllFrom_ok (d : Disk) (done : Elems) (cs : List Bytes)
    (hfree : ∀ pre, pre <+: cs → pre ≠ [] → ∀ x, d (done ++ pre) ≠ some (.file x)) :
    (mkdirAllFrom d done cs).2 = none
      ∧ ∀ pre, pre <+: cs → pre ≠ [] → (mkdirAllFrom d done cs).1 (done ++ pre) = some .dir := by
  induction cs generalizing d done with
  | nil =>
    refine ⟨rfl, ?_⟩
    intro pre hpre hne
    exact absurd (List.prefix_nil.1 hpre) hne
  | cons c rest ih =>
    have hc : ∀ x, d (done ++ [c]) ≠ some (.file x) :=
      hfree [c] (by simp [List.prefix_iff_eq_append]) (by simp)
    have key : ∀ d1 : Disk, d1 (done ++ [c]) = some .dir →
        (∀ q, q ≠ done ++ [c] → d1 q = d q) →
        (mkdirAllFrom d1 (done ++ [c]) rest).2 = none
          ∧ ∀ pre, pre <+: c :: rest → pre ≠ [] →
              (mkdirAllFrom d1 (done ++ [c]) rest).1 (done ++ pre) = some .dir := by
      intro d1 hdir hsame
      have hfree1 : ∀ pre, pre <+: rest → pre ≠ [] →
          ∀ x, d1 ((done ++ [c]) ++ pre) ≠ some (.file x) := by
        intro pre hpre hne x
        have hneq : (done ++ [c]) ++ pre ≠ done ++ [c] := by
          intro h
          exact hne (by simpa using h)
        rw [hsame _ hneq]
        have := hfree (c :: pre) ((List.prefix_cons_inj c).2 hpre) (by simp) x
        simpa using this
      obtain ⟨herr, hdirs⟩ := ih d1 (done ++ [c]) hfree1
      refine ⟨herr, ?_⟩
      intro pre hpre hne
      cases pre with
      | nil => exact absurd rfl hne
      | cons a pre2 =>
        obtain ⟨ha, hpre2⟩ := List.cons_prefix_cons.1 hpre
        subst ha
        by_cases hp2 : pre2 = []
        · subst hp2
          rw [mkdirAllFrom_frame d1 (done ++ [a]) rest (done ++ [a])]
          · exact hdir
          · rintro ⟨pre, _, hne2, hq⟩
            exact hne2 (by simpa using hq)
        · have := hdirs pre2 hpre2 hp2
          simpa using this
    unfold mkdirAllFrom
    cases hd : d (done ++ [c]) with
    | none =>
      exact key _ (set_same _ _ _) (fun q hq => set_other _ _ _ _ hq)
    | some o =>
      cases o with
      | file x => exact absurd hd (hc x)
      | dir => exact key d hd (fun _ _ => rfl)

/-- `MkdirAll` leaves at every path what was there, or a directory. -/
theorem mkdirAllFrom_keeps (d : Disk) (done : Elems) (cs : List Bytes) (q : Elems) :
    (mkdirAllFrom d done cs).1 q = d q ∨ (mkdirAllFrom d done cs).1 q = some .dir := by
  induction cs generalizing d done with
  | nil => left; rfl
  | cons c rest ih =>
    unfold mkdirAllFrom
    cases hd : d (done ++ [c]) with
    | none =>
      simp only
      rcases ih (d.set (done ++ [c]) .dir) (done ++ [c]) with h | h
      · by_cases hq : q = done ++ [c]
        · right; rw [h, hq, set_same]
        · left; rw [h, set_other _ _ _ _ hq]
      · right; exact h
    | some o =>
      cases o with
      | file x => left; rfl
      | dir => exact ih d (done ++ [c])

theorem sparesPath_iff (target : Elems) (dest : Bytes) :
    sparesPath target dest = true
      ↔ resolvePath dest ≠ target ∧ ¬ target <+: resolvePath (Dir dest) := by
  simp [sparesPath, ← List.isPrefixOf_iff_prefix]

/-- Extracting a zip entry leaves alone every path its destination spares. -/
theorem extractArtifactFile_spares (file : ZipFile) (dest : Bytes) (d : Disk) (target : Elems)
    (h : sparesPath target dest = true) :
    (extractArtifactFile file dest d).1 target = d target := by
  obtain ⟨h1, h2⟩ := (sparesPath_iff target dest).1 h
  have hmk : (osMkdirAll d (Dir dest)).1 target = d target := by
    apply mkdirAllFrom_frame
    rintro ⟨pre, hpre, _, hq⟩
    exact h2 (by simpa [hq] using hpre)
  unfold extractArtifactFile
  cases file.openErr with
  | some e => rfl
  | none =>
    simp only
    rcases hm : osMkdirAll d (Dir dest) with ⟨d1, e1⟩
    rw [hm] at hmk
    cases e1 with
    | some e => exact hmk
    | none =>
      simp only
      rcases hc : osCreate d1 dest with ⟨d2, e2⟩
      have hcr : d2 target = d1 target := by
        have : d2 = (osCreate d1 dest).1 := by rw [hc]
        rw [this]
        unfold osCreate
        split
        · rfl
        · split
          · rfl
          · split
            · rfl
            · exact set_other _ _ _ _ (Ne.symm h1)
      cases e2 with
      | some e => simp only; rw [hcr]; exact hmk
      | none =>
        simp only
        rw [set_other _ _ _ _ (Ne.symm h1), hcr]
        exact hmk

theorem extractFiles_spares (s : Server) (buildId : Bytes) (files : List ZipFile) (d : Disk)
    (target : Elems)
    (h : ∀ f ∈ files, sparesPath target (s.ArtifactFile buildId f.Name) = true) :
    (extractFiles s buildId files d).1 target = d target := by
  induction files generalizing d with
  | nil => rfl
  | cons f rest ih =>
    have hf := extractArtifactFile_spares f (s.ArtifactFile buildId f.Name) d target
      (h f (by simp))
    unfold extractFiles
    rcases he : extractArtifactFile f (s.ArtifactFile buildId f.Name) d with ⟨d1, e1⟩
    rw [he] at hf
    cases e1 with
    | some e => exact hf
    | none =>
      simp only
      rw [ih d1 (fun g hg => h g (by simp [hg]))]
      exact hf

/-! ## `handleArtifactsUpload`: the checksum file -/

theorem appendToFile_content (s : Server) (d : Disk) (filename data : Bytes) :
    ((s.appendToFile d filename data).2 = none →
        (s.appendToFile d filename data).1.content filename = d.content filename ++ data)
      ∧ ((s.appendToFile d filename data).2 ≠ none → (s.appendToFile d filename data).1 = d) := by
  unfold Server.appendToFile
  split
  · simp
  · cases hd : d (resolvePath filename) with
    | none => simp [Disk.content, hd, set_same]
    | some o =>
      cases o with
      | file old => simp [Disk.content, hd, set_same]
      | dir => simp

theorem extractToArtifactDir_spares (env : Env) (s : Server) (buildId : Bytes) (part : Part)
    (d : Disk) (target : Elems)
    (h : ∀ files, part.ReadAll.2 = none → env.zipNewReader part.ReadAll.1 = .ok files →
      ∀ f ∈ files, sparesPath target (s.ArtifactFile buildId f.Name) = true) :
    (extractToArtifactDir env s buildId part d).1 target = d target := by
  unfold extractToArtifactDir
  rcases hr : part.ReadAll with ⟨data, e⟩
  rw [hr] at h
  cases e with
  | some e => rfl
  | none =>
    simp only
    cases hz : env.zipNewReader data with
    | error e => rfl
    | ok files => exact extractFiles_spares s buildId files d target (h files rfl hz)

/-- One upload request whose zip entries spare the checksum file: the file's
content afterwards is its content before, followed by the bodies of the first
`file_checksum` parts of the request, all of them when the response is 201. -/
theorem uploadParts_checksum (env : Env) (s : Server) (buildId : Bytes) (form : List NextPart)
    (d : Disk)
    (hspare : ∀ dest ∈ zipDests env s buildId form,
      sparesPath (resolvePath (s.ChecksumFile buildId)) dest = true) :
    ∃ handled, handled <+: checksumBodies form
      ∧ (uploadParts env s buildId form d).1.content (s.ChecksumFile buildId)
          = d.content (s.ChecksumFile buildId) ++ handled.flatten
      ∧ ((uploadParts env s buildId form d).2 = .ok { status := 201, body := [] } →
          handled = checksumBodies form) := by
  induction form generalizing d with
  | nil =>
    refine ⟨[], List.nil_prefix, ?_, fun _ => rfl⟩
    simp only [uploadParts, List.flatten_nil, List.append_nil]
  | cons np rest ih =>
    cases np with
    | err e =>
      refine ⟨[], List.nil_prefix, ?_, ?_⟩
      · simp only [uploadParts, List.flatten_nil, List.append_nil]
      · intro h; simp only [uploadParts] at h; cases h
    | part p =>
      have hrest : ∀ dest ∈ zipDests env s buildId rest,
          sparesPath (resolvePath (s.ChecksumFile buildId)) dest = true := by
        intro dest hdest
        apply hspare
        simp only [zipDests, List.mem_append]
        exact Or.inr hdest
      by_cases hz : p.FormName = "zipfile".toList
      · have hnc : p.FormName ≠ "file_checksum".toList := by
          rw [hz]; decide
        have hkeep := extractToArtifactDir_spares env s buildId p d
          (resolvePath (s.ChecksumFile buildId)) (by
            intro files hread hdec f hf
            apply hspare
            simp only [zipDests, List.mem_append]
            left
            rw [if_pos ⟨hz, hread⟩, hdec]
            exact List.mem_map.2 ⟨f, hf, rfl⟩)
        rcases he : extractToArtifactDir env s buildId p d with ⟨d1, e1⟩
        rw [he] at hkeep
        have hcont : d1.content (s.ChecksumFile buildId) = d.content (s.ChecksumFile buildId) := by
          simp only [Disk.content]
          rw [show d1 (resolvePath (s.ChecksumFile buildId))
            = d (resolvePath (s.ChecksumFile buildId)) from hkeep]
        cases e1 with
        | some e =>
          refine ⟨[], List.nil_prefix, ?_, ?_⟩
          · simp only [uploadParts, if_pos hz, he, List.flatten_nil, List.append_nil]
            exact hcont
          · intro h
            simp only [uploadParts, if_pos hz, he, Server.responseInternalError] at h
            injection h with h
            injection h with h _
            exact absurd h (by decide)
        | none =>
          obtain ⟨handled, hpre, hc, hall⟩ := ih d1 hrest
          refine ⟨handled, ?_, ?_, ?_⟩
          · simp only [checksumBodies, if_neg hnc]
            exact hpre
          · simp only [uploadParts, if_pos hz, he]
            rw [hc, hcont]
          · simp only [uploadParts, if_pos hz, he, checksumBodies, if_neg hnc]
            exact hall
      · by_cases hck : p.FormName = "file_checksum".toList
        · rcases hr : p.ReadAll with ⟨bytes, e⟩
          cases e with
          | some e =>
            refine ⟨[], List.nil_prefix, ?_, ?_⟩
            · simp only [uploadParts, if_neg hz, if_pos hck, hr, List.flatten_nil,
                List.append_nil]
            · intro h
              simp only [uploadParts, if_neg hz, if_pos hck, hr,
                Server.responseInternalError] at h
              injection h with h
              injection h with h _
              exact absurd h (by decide)
          | none =>
            obtain ⟨happ, hfail⟩ := appendToFile_content s d (s.ChecksumFile buildId) bytes
            rcases ha : s.appendToFile d (s.ChecksumFile buildId) bytes with ⟨d1, e1⟩
            rw [ha] at happ hfail
            cases e1 with
            | some e =>
              have hd1 : d1 = d := hfail (by simp)
              refine ⟨[], List.nil_prefix, ?_, ?_⟩
              · simp only [uploadParts, if_neg hz, if_pos hck, hr, ha, hd1, List.flatten_nil,
                  List.append_nil]
              · intro h
                simp only [uploadParts, if_neg hz, if_pos hck, hr, ha,
                  Server.responseInternalError] at h
                injection h with h
                injection h with h _
                exact absurd h (by decide)
            | none =>
              obtain ⟨handled, hpre, hc, hall⟩ := ih d1 hrest
              refine ⟨bytes :: handled, ?_, ?_, ?_⟩
              · simp only [checksumBodies, if_pos hck, hr]
                exact (List.prefix_cons_inj bytes).2 hpre
              · simp only [uploadParts, if_neg hz, if_pos hck, hr, ha]
                rw [hc, happ rfl]
                simp only [List.flatten_cons, List.append_assoc]
              · simp only [uploadParts, if_neg hz, if_pos hck, hr, ha, checksumBodies]
                intro h201
                rw [hall h201]
        · obtain ⟨handled, hpre, hc, hall⟩ := ih d hrest
          refine ⟨handled, ?_, ?_, ?_⟩
          · simp only [checksumBodies, if_neg hck]
            exact hpre
          · simp only [uploadParts, if_neg hz, if_neg hck]
            exact hc
          · simp only [uploadParts, if_neg hz, if_neg hck, checksumBodies]
            exact hall

theorem handleArtifactsUpload_checksum (env : Env) (s : Server) (buildId : Bytes)
    (req : UploadRequest) (d : Disk) (hid : env.parseBuildId req.Path = buildId)
    (hspare : ∀ dest ∈ requestDests env s buildId req,
      sparesPath (resolvePath (s.ChecksumFile buildId)) dest = true) :
    ∃ handled, handled <+: requestChecksums req
      ∧ (handleArtifactsUpload env s d req).1.content (s.ChecksumFile buildId)
          = d.content (s.ChecksumFile buildId) ++ handled.flatten
      ∧ ((handleArtifactsUpload env s d req).2 = .ok { status := 201, body := [] } →
          handled = requestChecksums req) := by
  unfold handleArtifactsUpload requestChecksums
  unfold requestDests at hspare
  cases hm : req.MultipartReader with
  | error e =>
    refine ⟨[], List.nil_prefix, ?_, ?_⟩
    · simp only [List.flatten_nil, List.append_nil]
    · intro h
      simp only [Server.responseBadRequest] at h
      injection h with h
      injection h with h _
      exact absurd h (by decide)
  | ok form =>
    rw [hm] at hspare
    simp only [hid]
    exact uploadParts_checksum env s buildId form d hspare

theorem handleUploads_checksum (env : Env) (s : Server) (buildId : Bytes)
    (reqs : List UploadRequest) (d : Disk)
    (hid : ∀ r ∈ reqs, env.parseBuildId r.Path = buildId)
    (hspare : ∀ r ∈ reqs, ∀ dest ∈ requestDests env s buildId r,
      sparesPath (resolvePath (s.ChecksumFile buildId)) dest = true) :
    ∃ handled : List (List Bytes),
      List.Forall₂
        (fun h (rr : UploadRequest × Outcome Response) =>
          h <+: requestChecksums rr.1
            ∧ (rr.2 = .ok { status := 201, body := [] } → h = requestChecksums rr.1))
        handled (reqs.zip (handleUploads env s d reqs).2)
      ∧ (handleUploads env s d reqs).1.content (s.ChecksumFile buildId)
          = d.content (s.ChecksumFile buildId) ++ handled.flatten.flatten := by
  induction reqs generalizing d with
  | nil => exact ⟨[], by simp [handleUploads], by simp [handleUploads]⟩
  | cons r rest ih =>
    obtain ⟨h1, hpre, hc1, hall1⟩ := handleArtifactsUpload_checksum env s buildId r d
      (hid r (by simp)) (hspare r (by simp))
    obtain ⟨hs, hf, hc⟩ := ih (handleArtifactsUpload env s d r).1
      (fun q hq => hid q (by simp [hq])) (fun q hq => hspare q (by simp [hq]))
    refine ⟨h1 :: hs, ?_, ?_⟩
    · simp only [handleUploads, List.zip_cons_cons]
      exact List.Forall₂.cons ⟨hpre, hall1⟩ hf
    · simp only [handleUploads]
      rw [hc, hc1]
      simp only [List.flatten_cons, List.flatten_append, List.append_assoc]

theorem handleUploads_checksum_created (env : Env) (s : Server) (buildId : Bytes)
    (reqs : List UploadRequest) (d : Disk)
    (hid : ∀ r ∈ reqs, env.parseBuildId r.Path = buildId)
    (hspare : ∀ r ∈ reqs, ∀ dest ∈ requestDests env s buildId r,
      sparesPath (resolvePath (s.ChecksumFile buildId)) dest = true)
    (hall : ∀ resp ∈ (handleUploads env s d reqs).2, resp = .ok { status := 201, body := [] }) :
    (handleUploads env s d reqs).1.content (s.ChecksumFile buildId)
      = d.content (s.ChecksumFile buildId) ++ ((reqs.map requestChecksums).flatten).flatten := by
  induction reqs generalizing d with
  | nil => simp [handleUploads]
  | cons r rest ih =>
    obtain ⟨h1, _, hc1, hall1⟩ := handleArtifactsUpload_checksum env s buildId r d
      (hid r (by simp)) (hspare r (by simp))
    simp only [handleUploads, List.mem_cons, forall_eq_or_imp] at hall
    have hrest := ih (handleArtifactsUpload env s d r).1
      (fun q hq => hid q (by simp [hq])) (fun q hq => hspare q (by simp [hq])) hall.2
    simp only [handleUploads, List.map_cons, List.flatten_cons, List.flatten_append]
    rw [hrest, hc1, hall1 hall.1, List.append_assoc]

/-- C6 (refuted as stated): an upload for build 7, whose artifact directory
exists, with a zip holding the entry `../7.checksum`, followed by a
`file_checksum` part.  The response is 201, and the checksum file, which held
`a.txt=1`, now holds the entry's bytes followed by the part: its earlier
content was replaced. -/
theorem checksum_file_replaced_counterexample :
    (Disk.set demoDisk ["srv".toList, "artifacts".toList, "7".toList] .dir).content
        (Server.ChecksumFile ⟨"/srv".toList⟩ "7".toList) = "a.txt=1\n".toList
      ∧ (handleUploads (demoEnv [zipFileOf "../7.checksum".toList "x".toList])
          ⟨"/srv".toList⟩
          (Disk.set demoDisk ["srv".toList, "artifacts".toList, "7".toList] .dir)
          [⟨"/artifacts/7".toList,
            .ok [partOf "zipfile".toList "zip".toList,
                 partOf "file_checksum".toList "b.txt=2\n".toList]⟩]).2
        = [.ok { status := 201, body := [] }]
      ∧ (handleUploads (demoEnv [zipFileOf "../7.checksum".toList "x".toList])
          ⟨"/srv".toList⟩
          (Disk.set demoDisk ["srv".toList, "artifacts".toList, "7".toList] .dir)
          [⟨"/artifacts/7".toList,
            .ok [partOf "zipfile".toList "zip".toList,
                 partOf "file_checksum".toList "b.txt=2\n".toList]⟩]).1.content
            (Server.ChecksumFile ⟨"/srv".toList⟩ "7".toList)
        = "xb.txt=2\n".toList
      ∧ "xb.txt=2\n".toList ≠ "a.txt=1\n".toList ++ "b.txt=2\n".toList := by
  refine ⟨by decide, by decide, by decide, by decide⟩

/-- C6 (amended): for every sequence of upload requests for one build id in
which no zip entry is extracted onto the checksum file's path or needs a
directory at or above it, the checksum file afterwards holds its previous
content followed, request by request and in the order of the parts, by the
bodies of the `file_checksum` parts handled before the request ended: a prefix
of the request's parts, and all of them when the response is 201 Created. -/
theorem checksum_file_appended_in_order (env : Env) (s : Server) (buildId : Bytes)
    (reqs : List UploadRequest) (d : Disk)
    (hid : ∀ r ∈ reqs, env.parseBuildId r.Path = buildId)
    (hspare : ∀ r ∈ reqs, ∀ dest ∈ requestDests env s buildId r,
      sparesPath (resolvePath (s.ChecksumFile buildId)) dest = true) :
    (∃ handled : List (List Bytes),
      List.Forall₂
        (fun h (rr : UploadRequest × Outcome Response) =>
          h <+: requestChecksums rr.1
            ∧ (rr.2 = .ok { status := 201, body := [] } → h = requestChecksums rr.1))
        handled (reqs.zip (handleUploads env s d reqs).2)
      ∧ (handleUploads env s d reqs).1.content (s.ChecksumFile buildId)
          = d.content (s.ChecksumFile buildId) ++ handled.flatten.flatten)
    ∧ ((∀ resp ∈ (handleUploads env s d reqs).2, resp = .ok { status := 201, body := [] }) →
        (handleUploads env s d reqs).1.content (s.ChecksumFile buildId)
          = d.content (s.ChecksumFile buildId)
              ++ ((reqs.map requestChecksums).flatten).flatten) :=
  ⟨handleUploads_checksum env s buildId reqs d hid hspare,
    handleUploads_checksum_created env s buildId reqs d hid hspare⟩

/-- Witness for C6 (amended): two uploads for build 7, the first with the
artifact `artifact.txt` and its checksum line, the second with one more
checksum line. -/
theorem checksum_file_appended_in_order_witness :
    (handleUploads (demoEnv [zipFileOf "artifact.txt".toList "file created for test".toList])
        ⟨"/srv".toList⟩ demoDisk
        [⟨"/artifacts/7".toList,
          .ok [partOf "zipfile".toList "zip".toList,
               partOf "file_checksum".toList "artifact.txt=9\n".toList]⟩,
         ⟨"/artifacts/7".toList,
          .ok [partOf "file_checksum".toList "b.txt=2\n".toList]⟩]).1.content
        (Server.ChecksumFile ⟨"/srv".toList⟩ "7".toList)
      = "a.txt=1\nartifact.txt=9\nb.txt=2\n".toList := by
  have h := (checksum_file_appended_in_order
    (demoEnv [zipFileOf "artifact.txt".toList "file created for test".toList])
    ⟨"/srv".toList⟩ "7".toList
    [⟨"/artifacts/7".toList,
      .ok [partOf "zipfile".toList "zip".toList,
           partOf "file_checksum".toList "artifact.txt=9\n".toList]⟩,
     ⟨"/artifacts/7".toList,
      .ok [partOf "file_checksum".toList "b.txt=2\n".toList]⟩]
    demoDisk (by decide) (by decide)).2 (by decide)
  rw [h]
  decide

/-! ## `handleArtifactsUpload`: the extracted files -/

/-- Extracting one zip entry whose way is free: the error is that of reading
the entry, the destination holds the bytes read, and every other path holds
what it held, or a directory if it is the directory of the destination or
above it. -/
theorem extractArtifactFile_ok (file : ZipFile) (dest : Bytes) (d : Disk)
    (hopen : file.openErr = none)
    (hname : validName (Split dest).2 = true)
    (hnodir : d (resolvePath dest) ≠ some .dir)
    (hfree : ∀ q ∈ (resolvePath (Dir dest)).inits, d q = none ∨ d q = some .dir) :
    (extractArtifactFile file dest d).2 = file.readErr
      ∧ (extractArtifactFile file dest d).1 (resolvePath dest) = some (.file file.data)
      ∧ (∀ q, q ≠ resolvePath dest → ¬ q <+: resolvePath (Dir dest) →
          (extractArtifactFile file dest d).1 q = d q)
      ∧ (∀ q, q ≠ resolvePath dest →
          (extractArtifactFile file dest d).1 q = d q
            ∨ (extractArtifactFile file dest d).1 q = some .dir) := by
  have hres := resolve_split dest hname
  have hne : resolvePath dest ≠ [] := by rw [hres]; simp
  have hparent : (resolvePath dest).dropLast = resolvePath (Dir dest) := by
    rw [hres]; simp
  have hnotpre : ¬ resolvePath dest <+: resolvePath (Dir dest) := by
    intro h
    have := h.length_le
    rw [hres] at this
    simp at this
  obtain ⟨hmkerr, hmkdirs⟩ := mkdirAllFrom_ok d [] (resolvePath (Dir dest)) (by
    intro pre hpre _ x
    rcases hfree pre ((List.mem_inits _ _).2 hpre) with h | h <;> simp [h])
  have hmkframe := fun q => mkdirAllFrom_frame d [] (resolvePath (Dir dest)) q
  have hmkkeep := fun q => mkdirAllFrom_keeps d [] (resolvePath (Dir dest)) q
  rcases hm : mkdirAllFrom d [] (resolvePath (Dir dest)) with ⟨d1, e1⟩
  rw [hm] at hmkerr hmkdirs
  simp only [hm] at hmkframe hmkkeep
  simp only at hmkerr
  subst hmkerr
  have hd1dest : d1 (resolvePath dest) = d (resolvePath dest) := by
    apply hmkframe
    rintro ⟨pre, hpre, _, hq⟩
    exact hnotpre (by simpa [hq] using hpre)
  have hcreate : osCreate d1 dest = (d1.set (resolvePath dest) (.file []), none) := by
    unfold osCreate
    rw [if_neg hne, if_neg (by rw [hd1dest]; exact hnodir)]
    rw [if_neg]
    rw [hparent]
    rintro ⟨hp1, hp2⟩
    exact hp2 (by simpa using hmkdirs _ (List.prefix_refl _) hp1)
  have hrun : extractArtifactFile file dest d
      = ((d1.set (resolvePath dest) (.file [])).set (resolvePath dest) (.file file.data),
          file.readErr) := by
    unfold extractArtifactFile
    simp only [hopen, osMkdirAll, hm, hcreate]
  rw [hrun]
  refine ⟨rfl, set_same _ _ _, ?_, ?_⟩
  · intro q hq hpre
    simp only
    rw [set_other _ _ _ _ hq, set_other _ _ _ _ hq]
    apply hmkframe
    rintro ⟨pre, hp, _, hqq⟩
    exact hpre (by simpa [hqq] using hp)
  · intro q hq
    simp only
    rw [set_other _ _ _ _ hq, set_other _ _ _ _ hq]
    exact hmkkeep q

/-- Extracting zip files whose way is free: no error, every destination holds
the bytes of its entry, and a path that is no destination and no directory of
one, or above it, holds what it held. -/
theorem extractFiles_ok (s : Server) (buildId : Bytes) (files : List ZipFile) (d : Disk)
    (h : extractable s buildId d files) :
    (extractFiles s buildId files d).2 = none
      ∧ (∀ f ∈ files, (extractFiles s buildId files d).1
            (resolvePath (s.ArtifactFile buildId f.Name)) = some (.file f.data))
      ∧ (∀ q, (∀ f ∈ files, q ≠ resolvePath (s.ArtifactFile buildId f.Name)
              ∧ ¬ q <+: resolvePath (Dir (s.ArtifactFile buildId f.Name))) →
          (extractFiles s buildId files d).1 q = d q) := by
  induction files generalizing d with
  | nil => exact ⟨rfl, by simp, fun _ _ => rfl⟩
  | cons f rest ih =>
    obtain ⟨hread, hnodup, hname, hnodir, hcross, hfree⟩ := h
    obtain ⟨herr, hdest, hframe, hkeep⟩ := extractArtifactFile_ok f
      (s.ArtifactFile buildId f.Name) d (hread f (by simp)).1 (hname f (by simp))
      (hnodir f (by simp)) (hfree f (by simp))
    rcases he : extractArtifactFile f (s.ArtifactFile buildId f.Name) d with ⟨d1, e1⟩
    rw [he] at herr hdest hframe hkeep
    simp only at herr hdest hframe hkeep
    rw [(hread f (by simp)).2] at herr
    subst herr
    have hnd : resolvePath (s.ArtifactFile buildId f.Name)
          ∉ rest.map (fun g => resolvePath (s.ArtifactFile buildId g.Name))
        ∧ (rest.map (fun g => resolvePath (s.ArtifactFile buildId g.Name))).Nodup := by
      rw [List.map_cons] at hnodup
      exact List.nodup_cons.1 hnodup
    have hdiff : ∀ g ∈ rest, resolvePath (s.ArtifactFile buildId g.Name)
        ≠ resolvePath (s.ArtifactFile buildId f.Name) := by
      intro g hg heq
      exact hnd.1 (List.mem_map.2 ⟨g, hg, heq⟩)
    have hrest : extractable s buildId d1 rest := by
      refine ⟨fun g hg => hread g (by simp [hg]), hnd.2, fun g hg => hname g (by simp [hg]),
        ?_, fun g hg g2 hg2 => hcross g (by simp [hg]) g2 (by simp [hg2]), ?_⟩
      · intro g hg
        rw [hframe _ (hdiff g hg) (hcross g (by simp [hg]) f (by simp))]
        exact hnodir g (by simp [hg])
      · intro g hg q hq
        have hqne : q ≠ resolvePath (s.ArtifactFile buildId f.Name) := by
          intro heq
          exact hcross f (by simp) g (by simp [hg]) (heq ▸ (List.mem_inits _ _).1 hq)
        rcases hkeep q hqne with hk | hk
        · rw [hk]; exact hfree g (by simp [hg]) q hq
        · exact Or.inr hk
    obtain ⟨ierr, idest, iframe⟩ := ih d1 hrest
    have hunf : extractFiles s buildId (f :: rest) d = extractFiles s buildId rest d1 := by
      simp only [extractFiles, he]
    rw [hunf]
    refine ⟨ierr, ?_, ?_⟩
    · intro g hg
      rcases List.mem_cons.1 hg with hgf | hgr
      · subst hgf
        rw [iframe _ (fun g2 hg2 =>
          ⟨fun heq => hdiff g2 hg2 heq.symm, hcross g (by simp) g2 (by simp [hg2])⟩)]
        exact hdest
      · exact idest g hgr
    · intro q hq
      rw [iframe q (fun g hg => hq g (by simp [hg]))]
      exact hframe q (hq f (by simp)).1 (hq f (by simp)).2

/-- Parts that cannot end the request change the disk at most at the checksum
file, which stays a file or absent. -/
theorem uploadParts_benign (env : Env) (s : Server) (buildId : Bytes)
    (l rest : List NextPart) (d : Disk)
    (hl : ∀ np ∈ l, np.benign = true)
    (hck : resolvePath (s.ChecksumFile buildId) ≠ [])
    (hd : d (resolvePath (s.ChecksumFile buildId)) ≠ some .dir) :
    ∃ d1 : Disk, uploadParts env s buildId (l ++ rest) d = uploadParts env s buildId rest d1
      ∧ (∀ q, q ≠ resolvePath (s.ChecksumFile buildId) → d1 q = d q)
      ∧ d1 (resolvePath (s.ChecksumFile buildId)) ≠ some .dir := by
  induction l generalizing d with
  | nil => exact ⟨d, rfl, fun _ _ => rfl, hd⟩
  | cons np l ih =>
    have hl2 : ∀ np ∈ l, np.benign = true := fun x hx => hl x (by simp [hx])
    have hnp := hl np (by simp)
    cases np with
    | err e => simp [NextPart.benign] at hnp
    | part p =>
      simp only [NextPart.benign, Bool.and_eq_true, Bool.or_eq_true, bne_iff_ne, ne_eq,
        Option.isNone_iff_eq_none] at hnp
      obtain ⟨hz, hrd⟩ := hnp
      by_cases hc : p.FormName = "file_checksum".toList
      · have hnone : p.ReadAll.2 = none := by
          rcases hrd with h | h
          · exact absurd hc h
          · exact h
        rcases hr : p.ReadAll with ⟨bytes, e⟩
        rw [hr] at hnone
        simp only at hnone
        subst hnone
        have happ : ∃ x, s.appendToFile d (s.ChecksumFile buildId) bytes
            = (d.set (resolvePath (s.ChecksumFile buildId)) (.file x), none) := by
          unfold Server.appendToFile
          rw [if_neg hck]
          cases hdq : d (resolvePath (s.ChecksumFile buildId)) with
          | none => exact ⟨_, rfl⟩
          | some o =>
            cases o with
            | file old => exact ⟨_, rfl⟩
            | dir => exact absurd hdq hd
        obtain ⟨x, hx⟩ := happ
        obtain ⟨d1, hrun, hsame, hdir⟩ := ih
          (d.set (resolvePath (s.ChecksumFile buildId)) (.file x)) hl2
          (by rw [set_same]; simp)
        refine ⟨d1, ?_, ?_, hdir⟩
        · simp only [List.cons_append, uploadParts, if_neg hz, if_pos hc, hr, hx]
          exact hrun
        · intro q hq
          rw [hsame q hq, set_other _ _ _ _ hq]
      · obtain ⟨d1, hrun, hsame, hdir⟩ := ih d hl2 hd
        refine ⟨d1, ?_, hsame, hdir⟩
        simp only [List.cons_append, uploadParts, if_neg hz, if_neg hc]
        exact hrun

/-- C7 (refuted as stated): a valid zip with the two file entries `a` and
`a/b`, whose names are distinct.  After `a` is extracted as a regular file the
directory for `a/b` cannot be made: the response is the internal-error
response, not 201, and no file exists at `ArtifactFile(buildId, "a/b")`. -/
theorem upload_entry_below_entry_counterexample :
    "a".toList ≠ "a/b".toList
      ∧ (handleArtifactsUpload
          (demoEnv [zipFileOf "a".toList "1".toList, zipFileOf "a/b".toList "2".toList])
          ⟨"/srv".toList⟩ demoDisk
          ⟨"/artifacts/7".toList, .ok [partOf "zipfile".toList "zip".toList]⟩).2
        = .ok (Server.responseInternalError ⟨"/srv".toList⟩ "mkdir: not a directory")
      ∧ (handleArtifactsUpload
          (demoEnv [zipFileOf "a".toList "1".toList, zipFileOf "a/b".toList "2".toList])
          ⟨"/srv".toList⟩ demoDisk
          ⟨"/artifacts/7".toList, .ok [partOf "zipfile".toList "zip".toList]⟩).2
        ≠ .ok { status := 201, body := [] }
      ∧ (handleArtifactsUpload
          (demoEnv [zipFileOf "a".toList "1".toList, zipFileOf "a/b".toList "2".toList])
          ⟨"/srv".toList⟩ demoDisk
          ⟨"/artifacts/7".toList, .ok [partOf "zipfile".toList "zip".toList]⟩).1
            (resolvePath (Server.ArtifactFile ⟨"/srv".toList⟩ "7".toList "a/b".toList))
        = none := by
  refine ⟨by decide, by decide, by decide, by decide⟩

/-- C7 (amended): an upload request with one `zipfile` part that is read and
decoded without error, among parts that cannot end the request early.  When the
entries can be extracted (each can be opened and read; their destinations are
distinct paths ending in a file name, none a directory on the disk nor the
directory of another destination or above it; no regular file stands where a
directory is needed) and spare the checksum file, which is not a directory,
then the response is 201 Created and for every entry `e` the file at
`ArtifactFile(buildId, e.Name)` holds the bytes of `e`. -/
theorem upload_extracts_zip_entries (env : Env) (s : Server) (d : Disk) (req : UploadRequest)
    (pre post : List NextPart) (z : Part) (data : Bytes) (files : List ZipFile)
    (hform : req.MultipartReader = .ok (pre ++ NextPart.part z :: post))
    (hbenign : ∀ np ∈ pre ++ post, np.benign = true)
    (hzip : z.FormName = "zipfile".toList) (hread : z.ReadAll = (data, none))
    (hdec : env.zipNewReader data = .ok files)
    (hext : extractable s (env.parseBuildId req.Path) d files)
    (hck : resolvePath (s.ChecksumFile (env.parseBuildId req.Path)) ≠ []
      ∧ d (resolvePath (s.ChecksumFile (env.parseBuildId req.Path))) ≠ some .dir)
    (hspare : ∀ f ∈ files, sparesPath (resolvePath (s.ChecksumFile (env.parseBuildId req.Path)))
      (s.ArtifactFile (env.parseBuildId req.Path) f.Name) = true) :
    (handleArtifactsUpload env s d req).2 = .ok { status := 201, body := [] }
      ∧ ∀ f ∈ files, (handleArtifactsUpload env s d req).1
          (resolvePath (s.ArtifactFile (env.parseBuildId req.Path) f.Name))
            = some (.file f.data) := by
  have hsp := fun f hf => (sparesPath_iff _ _).1 (hspare f hf)
  obtain ⟨d1, hrun1, hsame1, hdir1⟩ := uploadParts_benign env s (env.parseBuildId req.Path)
    pre (NextPart.part z :: post) d (fun np hnp => hbenign np (by simp [hnp])) hck.1 hck.2
  have hext1 : extractable s (env.parseBuildId req.Path) d1 files := by
    obtain ⟨h1, h2, h3, h4, h5, h6⟩ := hext
    refine ⟨h1, h2, h3, ?_, h5, ?_⟩
    · intro f hf
      rw [hsame1 _ (hsp f hf).1]
      exact h4 f hf
    · intro f hf q hq
      have hq2 : q ≠ resolvePath (s.ChecksumFile (env.parseBuildId req.Path)) := by
        intro heq
        exact (hsp f hf).2 (heq ▸ (List.mem_inits _ _).1 hq)
      rw [hsame1 q hq2]
      exact h6 f hf q hq
  obtain ⟨ierr, idest, iframe⟩ := extractFiles_ok s (env.parseBuildId req.Path) files d1 hext1
  have hd2 : (extractFiles s (env.parseBuildId req.Path) files d1).1
      (resolvePath (s.ChecksumFile (env.parseBuildId req.Path))) ≠ some .dir := by
    rw [iframe _ (fun f hf => ⟨Ne.symm (hsp f hf).1, (hsp f hf).2⟩)]
    exact hdir1
  obtain ⟨d3, hrun3, hsame3, _⟩ := uploadParts_benign env s (env.parseBuildId req.Path)
    post [] (extractFiles s (env.parseBuildId req.Path) files d1).1
    (fun np hnp => hbenign np (by simp [hnp])) hck.1 hd2
  have hzrun : uploadParts env s (env.parseBuildId req.Path) (NextPart.part z :: post) d1
      = (d3, .ok { status := 201, body := [] }) := by
    rcases hx : extractFiles s (env.parseBuildId req.Path) files d1 with ⟨d2, e2⟩
    rw [hx] at ierr hrun3
    simp only at ierr hrun3
    subst ierr
    simp only [uploadParts, if_pos hzip, extractToArtifactDir, hread, hdec, hx]
    rw [List.append_nil] at hrun3
    rw [hrun3]
    simp only [uploadParts]
  have hall : handleArtifactsUpload env s d req = (d3, .ok { status := 201, body := [] }) := by
    simp only [handleArtifactsUpload, hform]
    rw [hrun1, hzrun]
  rw [hall]
  refine ⟨rfl, ?_⟩
  intro f hf
  simp only
  rw [hsame3 _ (hsp f hf).1]
  exact idest f hf

/-- Witness for C7 (amended): the upload of `artifact.txt` with content
`file created for test`, followed by its checksum line. -/
theorem upload_extracts_zip_entries_witness :
    (handleArtifactsUpload
        (demoEnv [zipFileOf "artifact.txt".toList "file created for test".toList])
        ⟨"/srv".toList⟩ demoDisk
        ⟨"/artifacts/7".toList,
          .ok ([] ++ NextPart.part ⟨"zipfile".toList, ("zip".toList, none)⟩
            :: [partOf "file_checksum".toList "artifact.txt=9\n".toList])⟩).2
        = .ok { status := 201, body := [] }
      ∧ ∀ f ∈ [zipFileOf "artifact.txt".toList "file created for test".toList],
          (handleArtifactsUpload
            (demoEnv [zipFileOf "artifact.txt".toList "file created for test".toList])
            ⟨"/srv".toList⟩ demoDisk
            ⟨"/artifacts/7".toList,
              .ok ([] ++ NextPart.part ⟨"zipfile".toList, ("zip".toList, none)⟩
                :: [partOf "file_checksum".toList "artifact.txt=9\n".toList])⟩).1
            (resolvePath (Server.ArtifactFile ⟨"/srv".toList⟩
              ((demoEnv [zipFileOf "artifact.txt".toList "file created for test".toList]).parseBuildId
                "/artifacts/7".toList) f.Name))
          = some (.file f.data) :=
  upload_extracts_zip_entries
    (demoEnv [zipFileOf "artifact.txt".toList "file created for test".toList])
    ⟨"/srv".toList⟩ demoDisk
    ⟨"/artifacts/7".toList,
      .ok ([] ++ NextPart.part ⟨"zipfile".toList, ("zip".toList, none)⟩
        :: [partOf "file_checksum".toList "artifact.txt=9\n".toList])⟩
    [] [partOf "file_checksum".toList "artifact.txt=9\n".toList]
    ⟨"zipfile".toList, ("zip".toList, none)⟩ "zip".toList
    [zipFileOf "artifact.txt".toList "file created for test".toList]
    rfl (by decide) rfl rfl rfl (by decide) (by decide) (by decide)

end Server

namespace Nunit

/-! ## `Read` -/

/-- When the unmarshalled value has a test suite, `Read` returns it with `Time`
set to the suite's time and `TestCases` to the suite's `InternalTestCases`, and
a nil error. -/
theorem read_with_test_suite (stat : Bytes → Except GoError Bool) (data f : Bytes)
    (results : TestResults) (suite : TestSuite) :
    Read { stat := stat, readFile := fun _ => .ok data,
           unmarshal := fun _ _ => ({ results with TestSuite := some suite }, none) } f
      = .ok (some { results with
                      TestSuite := some suite, Time := suite.Time,
                      TestCases := suite.InternalTestCases }, none) := rfl

/-- C11 (the code fails the claim): the document `<test-results></test-results>`
unmarshals without error and leaves `TestSuite` nil; `Read` then dereferences
the nil pointer and panics instead of returning, and so does
`GenerateNUnitTestReport`.  The same holds for every file content whose
unmarshalled value has no test suite. -/
theorem read_without_test_suite_panics :
    (demoFiles.unmarshal "<test-results></test-results>".toList NewTestResults).2 = none
      ∧ Read demoFiles "TestResult.xml".toList
          = .panic "invalid memory address or nil pointer dereference"
      ∧ GenerateNUnitTestReport (fun a _ => a) demoFiles NewTestResults "TestResult.xml".toList
          = .panic "invalid memory address or nil pointer dereference"
      ∧ ∀ (stat : Bytes → Except GoError Bool) (data f : Bytes) (results : TestResults),
          Read { stat := stat, readFile := fun _ => .ok data,
                 unmarshal := fun _ _ => ({ results with TestSuite := none }, none) } f
            = .panic "invalid memory address or nil pointer dereference" :=
  ⟨rfl, rfl, rfl, fun _ _ _ _ => rfl⟩

end Nunit

namespace Server

/-! ## `handleArtifactsUpload`: errors of `NextPart` -/

/-- As long as `NextPart` returns parts, the loop ends with the status 201 or
with the internal-error response. -/
theorem uploadParts_status (env : Env) (s : Server) (buildId : Bytes) (form : List NextPart)
    (d : Disk) (h : ∀ np ∈ form, ∃ p, np = NextPart.part p) :
    ∃ r, (uploadParts env s buildId form d).2 = .ok r ∧ (r.status = 201 ∨ r.status = 500) := by
  induction form generalizing d with
  | nil => exact ⟨_, rfl, Or.inl rfl⟩
  | cons np rest ih =>
    have hrest : ∀ x ∈ rest, ∃ p, x = NextPart.part p := fun x hx => h x (by simp [hx])
    obtain ⟨p, hp⟩ := h np (by simp)
    subst hp
    by_cases hz : p.FormName = "zipfile".toList
    · rcases he : extractToArtifactDir env s buildId p d with ⟨d1, e1⟩
      cases e1 with
      | some e =>
        simp only [uploadParts, if_pos hz, he]
        exact ⟨_, rfl, Or.inr rfl⟩
      | none =>
        simp only [uploadParts, if_pos hz, he]
        exact ih d1 hrest
    · by_cases hc : p.FormName = "file_checksum".toList
      · rcases hr : p.ReadAll with ⟨bytes, e⟩
        cases e with
        | some e =>
          simp only [uploadParts, if_neg hz, if_pos hc, hr]
          exact ⟨_, rfl, Or.inr rfl⟩
        | none =>
          rcases ha : s.appendToFile d (s.ChecksumFile buildId) bytes with ⟨d1, e1⟩
          cases e1 with
          | some e =>
            simp only [uploadParts, if_neg hz, if_pos hc, hr, ha]
            exact ⟨_, rfl, Or.inr rfl⟩
          | none =>
            simp only [uploadParts, if_neg hz, if_pos hc, hr, ha]
            exact ih d1 hrest
      · simp only [uploadParts, if_neg hz, if_neg hc]
        exact ih d hrest

/-- A request whose multipart reader cannot be made, or whose `NextPart` returns
only parts before `io.EOF`, is answered with the status 201, 400 or 500. -/
theorem handleArtifactsUpload_status (env : Env) (s : Server) (d : Disk) (req : UploadRequest)
    (h : ∀ form, req.MultipartReader = .ok form → ∀ np ∈ form, ∃ p, np = NextPart.part p) :
    ∃ r, (handleArtifactsUpload env s d req).2 = .ok r
      ∧ (r.status = 201 ∨ r.status = 400 ∨ r.status = 500) := by
  unfold handleArtifactsUpload
  cases hm : req.MultipartReader with
  | error e => exact ⟨_, rfl, Or.inr (Or.inl rfl)⟩
  | ok form =>
    obtain ⟨r, hr, hs⟩ := uploadParts_status env s (env.parseBuildId req.Path) form d (h form hm)
    exact ⟨r, hr, hs.elim Or.inl (fun h5 => Or.inr (Or.inr h5))⟩

/-- C12 (the code fails the claim): a POST whose multipart body ends before any
boundary, so that the first `NextPart` returns a nil part and the error
`multipart: NextPart: EOF`, which is not `io.EOF`.  The handler calls
`part.FormName()` on the nil part and panics; no response status is written.
The same happens when the error follows a part that was handled, and for every
request in which `NextPart` returns such an error first. -/
theorem upload_nextPart_error_panics :
    (handleArtifactsUpload (demoEnv []) ⟨"/srv".toList⟩ demoDisk
        ⟨"/artifacts/7".toList, .ok [NextPart.err "multipart: NextPart: EOF"]⟩).2
        = .panic "invalid memory address or nil pointer dereference"
      ∧ (handleArtifactsUpload (demoEnv []) ⟨"/srv".toList⟩ demoDisk
          ⟨"/artifacts/7".toList,
            .ok [partOf "file_checksum".toList "b.txt=2\n".toList,
                 NextPart.err "multipart: NextPart: EOF"]⟩).2
        = .panic "invalid memory address or nil pointer dereference"
      ∧ ∀ (env : Env) (s : Server) (d : Disk) (path : Bytes) (e : GoError)
          (rest : List NextPart),
          handleArtifactsUpload env s d ⟨path, .ok (NextPart.err e :: rest)⟩
            = (d, .panic "invalid memory address or nil pointer dereference") := by
  refine ⟨by decide, by decide, ?_⟩
  intro env s d path e rest
  rfl

end Server
